import Mathlib

/-!
Shallow embedding of the pluggable-transport framework (Rust) core:
the argument-grammar parsers (`src/args.rs`), the negotiation helpers
(`src/pt.rs`), the bind-address resolver (`src/bindaddr.rs`) and the
bidirectional-copy state machine (`src/pt/copy.rs`), together with proofs
about them.

A Rust `String`/`&str` is modelled as a `List Char` (its sequence of Unicode
scalar values, exactly what Rust's `chars()` iterator yields).  Rust's
`s.len()` is the UTF-8 *byte* length, while `s.chars().nth(i)` indexes
*characters*; the source of `index_unescaped` mixes the two, so the model
keeps both notions (`byteLen` vs `List.get?`) and models byte-based slicing
(`&s[i..]`, which panics off a character boundary) by `sliceFrom`.
A possible panic is modelled by `Option`: `none` means the Rust code panics
(`unwrap` of `None`, or slicing off a char boundary).
-/

deriving instance DecidableEq for Except

set_option synthInstance.maxSize 2000

namespace PT

/-- Shorthand: view a Lean string literal as the `List Char` string model. -/
abbrev str (s : String) : List Char := s.toList

/-- Number of bytes of the UTF-8 encoding of a scalar value (Rust `char::len_utf8`). -/
def utf8CharLen (c : Char) : Nat :=
  if c.toNat < 0x80 then 1
  else if c.toNat < 0x800 then 2
  else if c.toNat < 0x10000 then 3
  else 4

/-- UTF-8 byte length of a string, Rust's `str::len`. -/
def byteLen (s : List Char) : Nat := (s.map utf8CharLen).sum

/-- UTF-8 encoding of one scalar value, as byte values. -/
def utf8Bytes (c : Char) : List Nat :=
  let v := c.toNat
  if v < 0x80 then [v]
  else if v < 0x800 then [0xC0 + v / 64, 0x80 + v % 64]
  else if v < 0x10000 then [0xE0 + v / 4096, 0x80 + v / 64 % 64, 0x80 + v % 64]
  else [0xF0 + v / 262144, 0x80 + v / 4096 % 64, 0x80 + v / 64 % 64, 0x80 + v % 64]

/-- Every character of the string is a single-byte (ASCII) scalar value. -/
def allAscii (s : List Char) : Bool := s.all (fun c => c.toNat < 0x80)

/-- Byte-based suffix slice `&s[i..]`.  Returns `none` (Rust panic) when `i`
is past the end or not on a character boundary. -/
def sliceFrom : List Char → Nat → Option (List Char)
  | s, 0 => some s
  | [], _ + 1 => none
  | c :: cs, i + 1 =>
    if utf8CharLen c ≤ i + 1 then sliceFrom cs (i + 1 - utf8CharLen c) else none

/-- Rust's `char as u8` cast: truncation to the low byte. -/
def charAsU8 (c : Char) : Nat := c.toNat % 256

/-- Error type of `src/error.rs` (`PTError`).  Payload message strings are
elided: no claim inspects them, only the variants. -/
inductive PTError where
  | EnvError
  | IOError
  | ParseError
  | AddrParseError
  | ProxyError
  | VersionError
  | CMethodError
  | SMethodError
  | Unknown
deriving DecidableEq, Repr

/-- Argument map of `src/args.rs` (`pub type Args = HashMap<String, Vec<String>>`),
modelled as an association list with unique keys, kept in insertion order
(a `HashMap` itself is unordered; insertion order is a canonical choice). -/
abbrev Args := List (List Char × List (List Char))

/-- The `add` operation of the `Track` impl for `Args`:
`entry(key).or_insert(vec![])` followed by `push(value)` — append to the
key's list when present, otherwise insert the key with the one value. -/
def Args.add (args : Args) (key value : List Char) : Args :=
  if args.any (fun kv => kv.1 = key) then
    args.map (fun kv => if kv.1 = key then (kv.1, kv.2 ++ [value]) else kv)
  else
    args ++ [(key, [value])]

/-- Loop body of `index_unescaped` (src/args.rs:81-105).  `fuel` only bounds
the iteration count; it is set to `byteLen s + 1` by the wrapper, which is
always enough since `i` grows by at least one per iteration, so the
`fuel = 0` case is never reached from the wrapper.
`none` models a panic: `s.chars().nth(i).unwrap()` with `i` at or past the
character count while still below the byte count. -/
def iuGo (s term : List Char) : Nat → Nat → List Char → Option (Except PTError (Nat × List Char))
  | 0, _, _ => none
  | fuel + 1, i, unesc =>
    if byteLen s ≤ i then some (.ok (i, unesc))
    else
      match s.get? i with
      | none => none
      | some c =>
        if c ∈ term then some (.ok (i, unesc))
        else if c = '\\' then
          if byteLen s ≤ i + 1 then some (.error .ParseError)
          else
            match s.get? (i + 1) with
            | none => none
            | some c2 => iuGo s term fuel (i + 2) (unesc ++ [c2])
        else iuGo s term fuel (i + 1) (unesc ++ [c])

/-- Model of `index_unescaped` (src/args.rs:81-105): scan forward from the
start of `s`, unescaping backslash escapes, until an unescaped terminator
from `term`; return the index reached and the unescaped prefix. -/
def index_unescaped (s term : List Char) : Option (Except PTError (Nat × List Char)) :=
  iuGo s term (byteLen s + 1) 0 []

/-- Loop body of `parse_client_parameters` (src/args.rs:112-158).  `i` is the
running byte/char index into `params` exactly as in the source; `fuel` is an
iteration bound only (the wrapper passes `byteLen params + 1`, always enough
since `i` grows by at least two per iteration). -/
def pcpGo (params : List Char) : Nat → Nat → Args → Option (Except PTError Args)
  | 0, _, _ => none
  | fuel + 1, i, args =>
    match sliceFrom params i with
    | none => none
    | some rest =>
      match index_unescaped rest ['=', ';'] with
      | none => none
      | some (.error e) => some (.error e)
      | some (.ok (off, key)) =>
        -- End of string or no equals sign?
        if byteLen params ≤ i + off then some (.error .ParseError)
        else
          match params.get? (i + off) with
          | none => none
          | some c =>
            if c ≠ '=' then some (.error .ParseError)
            else
              -- Skip the equals sign, read the value.
              match sliceFrom params (i + off + 1) with
              | none => none
              | some rest2 =>
                match index_unescaped rest2 [';'] with
                | none => none
                | some (.error e) => some (.error e)
                | some (.ok (off2, value)) =>
                  if key = [] then some (.error .ParseError)
                  else
                    let args' := Args.add args key value
                    if byteLen params ≤ i + off + 1 + off2 then some (.ok args')
                    else pcpGo params fuel (i + off + 1 + off2 + 1) args'

/-- Model of `parse_client_parameters` (src/args.rs:112-158). -/
def parse_client_parameters (params : List Char) : Option (Except PTError Args) :=
  if params = [] then some (.ok [])
  else pcpGo params (byteLen params + 1) 0 []

/-- Model of `backslash_escape` (src/args.rs:67-76). -/
def backslash_escape : List Char → List Char → List Char
  | [], _ => []
  | a :: rest, set =>
    (if a = '\\' ∨ a ∈ set then ['\\', a] else [a]) ++ backslash_escape rest set

/-- The `escape` closure of `encode_smethod_args`: backslash-escape `=` and `,`. -/
def escapeSm (s : List Char) : List Char := backslash_escape s ['=', ',']

/-- Lexicographic comparison of strings by scalar value (Rust `String` `Ord`). -/
def strLe : List Char → List Char → Bool
  | [], _ => true
  | _ :: _, [] => false
  | a :: as_, b :: bs =>
    if a.toNat < b.toNat then true
    else if b.toNat < a.toNat then false
    else strLe as_ bs

/-- Insertion sort of an `Args` association list by key, modelling the
`.sorted()` of `encode_smethod_args` (keys of a `HashMap` are unique, so
sorting the `(key, values)` pairs is sorting by key). -/
def insertByKey (kv : List Char × List (List Char)) : Args → Args
  | [] => [kv]
  | kv2 :: rest =>
    if strLe kv.1 kv2.1 then kv :: kv2 :: rest else kv2 :: insertByKey kv rest

def sortByKey : Args → Args
  | [] => []
  | kv :: rest => insertByKey kv (sortByKey rest)

/-- Comma join (Rust `Vec::join(",")`). -/
def joinComma : List (List Char) → List Char
  | [] => []
  | [x] => x
  | x :: y :: rest => x ++ ',' :: joinComma (y :: rest)

/-- Model of `encode_smethod_args` (src/args.rs:45-65): sorted by key, each
value yields one `key=value` pair with `=`, `,`, `\` escaped, all pairs
joined by commas; `None` encodes to the empty string. -/
def encode_smethod_args : Option Args → List Char
  | none => []
  | some args =>
    joinComma ((sortByKey args).map (fun kv =>
      joinComma (kv.2.map (fun value => escapeSm kv.1 ++ '=' :: escapeSm value))))

/-- Transport-options map of `src/args.rs` (`pub type Opts = HashMap<String, Args>`),
modelled like `Args` as an insertion-ordered association list with unique keys. -/
abbrev Opts := List (List Char × Args)

/-- Association-list lookup, the `HashMap::get` of the model. -/
def lookupOpt (opts : Opts) (name : List Char) : Option Args :=
  match opts.find? (fun kv => kv.1 = name) with
  | some kv => some kv.2
  | none => none

/-- The `opts.entry(method_name).and_modify(|e| e.add(&key, &value))
.or_insert(hashmap! {key => vec![value]})` of `parse_server_transport_options`. -/
def Opts.addEntry (opts : Opts) (name key value : List Char) : Opts :=
  if opts.any (fun kv => kv.1 = name) then
    opts.map (fun kv => if kv.1 = name then (kv.1, Args.add kv.2 key value) else kv)
  else
    opts ++ [(name, [(key, [value])])]

/-- Loop body of `parse_server_transport_options` (src/args.rs:171-232), with
the same index/fuel conventions as `pcpGo`. -/
def pstoGo (s : List Char) : Nat → Nat → Opts → Option (Except PTError Opts)
  | 0, _, _ => none
  | fuel + 1, i, opts =>
    match sliceFrom s i with
    | none => none
    | some rest =>
      match index_unescaped rest [':', '=', ';'] with
      | none => none
      | some (.error e) => some (.error e)
      | some (.ok (off, method_name)) =>
        -- End of string or no colon?
        if byteLen s ≤ i + off then some (.error .ParseError)
        else
          match s.get? (i + off) with
          | none => none
          | some c =>
            if c ≠ ':' then some (.error .ParseError)
            else
              -- Skip the colon, read the key.
              match sliceFrom s (i + off + 1) with
              | none => none
              | some rest2 =>
                match index_unescaped rest2 ['=', ';'] with
                | none => none
                | some (.error e) => some (.error e)
                | some (.ok (off2, key)) =>
                  -- End of string or no equals sign?
                  if byteLen s ≤ i + off + 1 + off2 then some (.error .ParseError)
                  else
                    match s.get? (i + off + 1 + off2) with
                    | none => none
                    | some c2 =>
                      if c2 ≠ '=' then some (.error .ParseError)
                      else
                        -- Skip the equals sign, read the value.
                        match sliceFrom s (i + off + 1 + off2 + 1) with
                        | none => none
                        | some rest3 =>
                          match index_unescaped rest3 [';'] with
                          | none => none
                          | some (.error e) => some (.error e)
                          | some (.ok (off3, value)) =>
                            if method_name = [] then some (.error .ParseError)
                            else if key = [] then some (.error .ParseError)
                            else
                              let opts' := Opts.addEntry opts method_name key value
                              if byteLen s ≤ i + off + 1 + off2 + 1 + off3 then
                                some (.ok opts')
                              else pstoGo s fuel (i + off + 1 + off2 + 1 + off3 + 1) opts'

/-- Model of `parse_server_transport_options` (src/args.rs:171-232). -/
def parse_server_transport_options (s : List Char) : Option (Except PTError Opts) :=
  if s = [] then some (.ok [])
  else pstoGo s (byteLen s + 1) 0 []

/-! ### Negotiation helpers of `src/pt.rs` -/

/-- Split on a separator character, keeping empty segments
(Rust `str::split(char)`). -/
def splitOnChar (sep : Char) : List Char → List (List Char)
  | [] => [[]]
  | c :: rest =>
    if c = sep then [] :: splitOnChar sep rest
    else
      match splitOnChar sep rest with
      | [] => [[c]]
      | g :: gs => (c :: g) :: gs

/-- Comma-separated tokens of a string (`s.split(',')`). -/
def commaSplit (s : List Char) : List (List Char) := splitOnChar ',' s

/-- Rust `s.split("")`: the empty pattern matches at every character boundary,
yielding a leading empty string, each character, and a trailing empty string. -/
def rustSplitEmpty (s : List Char) : List (List Char) :=
  [] :: (s.map (fun c => [c]) ++ [[]])

/-- Model of `get_managed_transport_version` (src/pt.rs:78-87) as a function of
the value of `TOR_PT_MANAGED_TRANSPORT_VER` (the environment read itself is
elided; an absent variable is an `EnvError` before this logic runs).
Note the source iterates `env_value.split("")` — the *empty* pattern — and
returns `Ok` on the first piece equal to `"1"`. -/
def get_managed_transport_version (v : List Char) : Except PTError (List Char) :=
  match (rustSplitEmpty v).find? (fun piece => piece = ['1']) with
  | some piece => .ok piece
  | none => .error .VersionError

/-- Model of `keyword_is_safe` (src/pt.rs:151-163): every character is an
ASCII alphanumeric, `-` or `_`. -/
def keyword_is_safe (keyword : List Char) : Bool :=
  keyword.all (fun b =>
    ('0' ≤ b ∧ b ≤ '9') ∨ ('A' ≤ b ∧ b ≤ 'Z') ∨ ('a' ≤ b ∧ b ≤ 'z') ∨ b = '-' ∨ b = '_')

/-- Model of `arg_is_safe` (src/pt.rs:167-176).  The source matches on
`b as u8` — the *truncating* cast of each char — and rejects values `≥ 0x80`
and the values `0x00` and `0x0A`. -/
def arg_is_safe (arg : List Char) : Bool :=
  arg.all (fun c =>
    let b := charAsU8 c
    ¬(0x80 ≤ b ∨ b = 0x00 ∨ b = 0x0A))

/-- Three-digit zero-padded octal (`format \x7b:03o\x7d` for values below 512). -/
def octal3 (n : Nat) : List Char :=
  [Char.ofNat (48 + n / 64 % 8), Char.ofNat (48 + n / 8 % 8), Char.ofNat (48 + n % 8)]

/-- Character loop of `encode_cstring`: printable ASCII other than `"` (34)
and `\` (92) is copied; everything else becomes `\` plus the 3-digit octal of
`b as u8`. -/
def ecGo : List Char → List Char
  | [] => []
  | b :: rest =>
    (if ' ' ≤ b ∧ b ≤ '!' then [b]
     else if '#' ≤ b ∧ b ≤ '[' then [b]
     else if ']' ≤ b ∧ b ≤ '~' then [b]
     else '\\' :: octal3 (charAsU8 b)) ++ ecGo rest

/-- Model of `encode_cstring` (src/pt.rs:195-208). -/
def encode_cstring (s : List Char) : List Char :=
  '"' :: ecGo s ++ ['"']

/-- States of the `decode_cstring` scanner (the source uses the string tags
`"^"`, `"."`, `"\\"`, `"o1"`, `"o2"`, `"$"`). -/
inductive DecState where
  | start  -- "^": before the opening quote
  | dot    -- ".": inside the quoted content
  | esc    -- "\\": right after a backslash
  | oct1   -- "o1": one octal digit read
  | oct2   -- "o2": two octal digits read
  | fin    -- "$": after the closing quote
deriving DecidableEq, Repr

/-- Scanner loop of `decode_cstring` (src/pt.rs:700-802, the test-module
decoder).  The source's `continue` in the non-digit arms of `o1`/`o2`
re-processes the current character in state `"."`; that one-step re-dispatch
is inlined here (match on `c` as the `"."` arm would), so the recursion
consumes one character per call.  Falling off the end of input returns
`Ok(result)` whatever the state, exactly as in the source. -/
def dcGo : DecState → Nat → List Char → List Char → Except PTError (List Char)
  | _, _, result, [] => .ok result
  | .start, num, result, c :: rest =>
    if c ≠ '"' then .error .ParseError else dcGo .dot num result rest
  | .dot, num, result, c :: rest =>
    if c = '\\' then dcGo .esc num result rest
    else if c = '"' then dcGo .fin num result rest
    else dcGo .dot num (result ++ [c]) rest
  | .esc, num, result, c :: rest =>
    if c = 'n' then dcGo .dot num (result ++ ['\n']) rest
    else if c = 't' then dcGo .dot num (result ++ ['\t']) rest
    else if c = 'r' then dcGo .dot num (result ++ ['\r']) rest
    else if c = '"' ∨ c = '\\' then dcGo .dot num (result ++ [c]) rest
    else if '0' ≤ c ∧ c ≤ '7' then dcGo .oct1 (c.toNat - 48) result rest
    else .error .ParseError
  | .oct1, num, result, c :: rest =>
    if '0' ≤ c ∧ c ≤ '7' then dcGo .oct2 (num * 8 + (c.toNat - 48)) result rest
    else if 255 < num then .error .ParseError
    else
      -- push the accumulated octal char, then re-process `c` as state "."
      if c = '\\' then dcGo .esc num (result ++ [Char.ofNat num]) rest
      else if c = '"' then dcGo .fin num (result ++ [Char.ofNat num]) rest
      else dcGo .dot num (result ++ [Char.ofNat num, c]) rest
  | .oct2, num, result, c :: rest =>
    if '0' ≤ c ∧ c ≤ '7' then
      if 255 < num * 8 + (c.toNat - 48) then .error .ParseError
      else dcGo .dot (num * 8 + (c.toNat - 48)) (result ++ [Char.ofNat (num * 8 + (c.toNat - 48))]) rest
    else if 255 < num then .error .ParseError
    else
      -- push the accumulated octal char, then re-process `c` as state "."
      if c = '\\' then dcGo .esc num (result ++ [Char.ofNat num]) rest
      else if c = '"' then dcGo .fin num (result ++ [Char.ofNat num]) rest
      else dcGo .dot num (result ++ [Char.ofNat num, c]) rest
  | .fin, _, _, _ :: _ => .error .ParseError

/-- Model of `decode_cstring` (src/pt.rs:700-802). -/
def decode_cstring (enc : List Char) : Except PTError (List Char) :=
  dcGo .start 0 [] enc

/-! ### Socket addresses and `resolve_addr` (src/pt.rs:210-229)

`addr_str.parse::<SocketAddr>()` is the Rust standard library's strict
socket-address parser; it is modelled here (an external collaborator of the
repository): either `a.b.c.d:port` (decimal octets ≤ 255, no leading zeros)
or `[v6]:port` (hex groups of 1–4 digits, at most one `::`, 8 groups total).
Trailing embedded-IPv4 forms of IPv6 (`::ffff:1.2.3.4`) are not modelled;
no input relevant to the claims uses them. -/

inductive IpAddr where
  | v4 : Nat → Nat → Nat → Nat → IpAddr
  | v6 : List Nat → IpAddr  -- the eight 16-bit groups
deriving DecidableEq, Repr

structure SockAddr where
  ip : IpAddr
  port : Nat
deriving DecidableEq, Repr

def isDecDigit (c : Char) : Bool := '0' ≤ c ∧ c ≤ '9'

def isHexDigitC (c : Char) : Bool :=
  ('0' ≤ c ∧ c ≤ '9') ∨ ('a' ≤ c ∧ c ≤ 'f') ∨ ('A' ≤ c ∧ c ≤ 'F')

def hexDigitVal (c : Char) : Nat :=
  if '0' ≤ c ∧ c ≤ '9' then c.toNat - 48
  else if 'a' ≤ c ∧ c ≤ 'f' then c.toNat - 87
  else if 'A' ≤ c ∧ c ≤ 'F' then c.toNat - 55
  else 0

def decValue (s : List Char) : Nat := s.foldl (fun acc c => acc * 10 + (c.toNat - 48)) 0

def hexValue (s : List Char) : Nat := s.foldl (fun acc c => acc * 16 + hexDigitVal c) 0

/-- One IPv4 octet: 1–3 decimal digits, value ≤ 255, no leading zero. -/
def parseOctet (s : List Char) : Option Nat :=
  if s ≠ [] ∧ s.length ≤ 3 ∧ s.all isDecDigit ∧ (s.headD '0' = '0' → s.length = 1) ∧
      decValue s ≤ 255 then
    some (decValue s)
  else none

def parseIpv4 (s : List Char) : Option IpAddr :=
  match (splitOnChar '.' s).mapM parseOctet with
  | some [a, b, c, d] => some (.v4 a b c d)
  | _ => none

/-- One IPv6 group: 1–4 hex digits (leading zeros allowed). -/
def parseHexGroup (s : List Char) : Option Nat :=
  if s ≠ [] ∧ s.length ≤ 4 ∧ s.all isHexDigitC then some (hexValue s) else none

/-- Split at the first `::`, if any. -/
def splitDoubleColon : List Char → Option (List Char × List Char)
  | ':' :: ':' :: rest => some ([], rest)
  | c :: rest =>
    match splitDoubleColon rest with
    | some (l, r) => some (c :: l, r)
    | none => none
  | [] => none

/-- The colon-separated hex groups of an IPv6 half (empty half ⇒ no groups). -/
def v6Groups (s : List Char) : Option (List Nat) :=
  if s = [] then some [] else (splitOnChar ':' s).mapM parseHexGroup

def parseIpv6 (s : List Char) : Option IpAddr :=
  match splitDoubleColon s with
  | some (l, r) =>
    match v6Groups l, v6Groups r with
    | some gl, some gr =>
      if gl.length + gr.length ≤ 7 then
        some (.v6 (gl ++ List.replicate (8 - gl.length - gr.length) 0 ++ gr))
      else none
    | _, _ => none
  | none =>
    match v6Groups s with
    | some g => if g.length = 8 then some (.v6 g) else none
    | none => none

/-- Port: 1 or more decimal digits (leading zeros allowed), value ≤ 65535. -/
def parsePort (s : List Char) : Option Nat :=
  if s ≠ [] ∧ s.all isDecDigit ∧ decValue s ≤ 65535 then some (decValue s) else none

/-- Split at the first `]`, if any (used for the bracketed IPv6 socket form). -/
def splitRBracket : List Char → Option (List Char × List Char)
  | ']' :: rest => some ([], rest)
  | c :: rest =>
    match splitRBracket rest with
    | some (l, r) => some (c :: l, r)
    | none => none
  | [] => none

/-- Model of `str::parse::<SocketAddr>()`. -/
def parseSocketAddr (s : List Char) : Option SockAddr :=
  match s with
  | '[' :: rest =>
    match splitRBracket rest with
    | some (inner, ':' :: portStr) =>
      match parseIpv6 inner, parsePort portStr with
      | some ip, some p => some ⟨ip, p⟩
      | _, _ => none
    | _ => none
  | _ =>
    match splitOnChar ':' s with
    | [host, portStr] =>
      match parseIpv4 host, parsePort portStr with
      | some ip, some p => some ⟨ip, p⟩
      | _, _ => none
    | _ => none

/-- Colon join (Rust `Vec::join(":")`). -/
def joinColon : List (List Char) → List Char
  | [] => []
  | [x] => x
  | x :: y :: rest => x ++ ':' :: joinColon (y :: rest)

/-- Model of `resolve_addr` (src/pt.rs:210-229): try the standard socket
parser; on failure, if the string has at least two `:`-separated parts
besides the last, re-parse with brackets inserted around everything left of
the final `:` (the source's `println!` debug output is elided). -/
def resolve_addr (addr_str : List Char) : Except PTError SockAddr :=
  match parseSocketAddr addr_str with
  | some a => .ok a
  | none =>
    let parts := splitOnChar ':' addr_str
    if parts.length ≤ 2 then .error .AddrParseError
    else
      -- parts.pop() — `split` never yields an empty list, so the pop succeeds
      let port := parts.getLastD []
      let addr := '[' :: joinColon parts.dropLast ++ ']' :: ':' :: port
      match parseSocketAddr addr with
      | some a => .ok a
      | none => .error .AddrParseError

/-! ### Bind-address resolver (src/bindaddr.rs) -/

/-- The `BindAddr` record of src/bindaddr.rs:16-23. -/
structure BindAddr where
  method_name : List Char
  addr : SockAddr
  options : Args
deriving DecidableEq, Repr

/-- Model of `filter_bindaddrs` (src/bindaddr.rs:78-86). -/
def filter_bindaddrs (bindaddrs : List BindAddr) (method_names : List (List Char)) :
    List BindAddr :=
  bindaddrs.filter (fun a => method_names.contains a.method_name)

/-- Method name of one bind-address segment: `spec.split('-')` part 0. -/
def methodHead (spec : List Char) : List Char := (splitOnChar '-' spec).headD []

/-- The per-segment loop of `get_server_bindaddrs` (src/bindaddr.rs:36-68):
hyphen-split each segment, reject a segment without exactly two parts,
reject duplicate method names, resolve the address, attach the options.
The source's local bindings `parts` (`spec.split('-')`) and `method_name`
(`parts[0]`, i.e. `methodHead spec`) are inlined. -/
def gsbLoop (options_map : Opts) :
    List (List Char) → List (List Char) → List BindAddr → Except PTError (List BindAddr)
  | [], _, addrs => .ok addrs
  | spec :: rest, seen, addrs =>
    if (splitOnChar '-' spec).length ≠ 2 then .error .ParseError
    else if methodHead spec ∈ seen then .error .ParseError
    else
      match resolve_addr ((splitOnChar '-' spec).getLastD []) with
      | .error e => .error e
      | .ok addr =>
        gsbLoop options_map rest (seen ++ [methodHead spec])
          (addrs ++ [⟨methodHead spec, addr, (lookupOpt options_map (methodHead spec)).getD []⟩])

/-- Model of `get_server_bindaddrs` (src/bindaddr.rs:25-76) as a function of
the values of `TOR_PT_SERVER_TRANSPORT_OPTIONS`, `TOR_PT_SERVER_BINDADDR`
and `TOR_PT_SERVER_TRANSPORTS` (environment reads elided; an absent variable
is an `EnvError` before this logic runs).  The options string is parsed
first, then the comma-split bind-address list is processed, then the result
is filtered by the comma-split enabled-transport names. -/
def get_server_bindaddrs (options_str bindaddr_str transports_str : List Char) :
    Option (Except PTError (List BindAddr)) :=
  match parse_server_transport_options options_str with
  | none => none
  | some (.error e) => some (.error e)
  | some (.ok options_map) =>
    match gsbLoop options_map (commaSplit bindaddr_str) [] [] with
    | .error e => some (.error e)
    | .ok addrs => some (.ok (filter_bindaddrs addrs (commaSplit transports_str)))

/-! ### Bidirectional-copy state machine (src/pt/copy.rs) -/

/-- `std::task::Poll`. -/
inductive Poll (α : Type) where
  | Ready : α → Poll α
  | Pending
deriving DecidableEq, Repr

/-- I/O errors of the copy engine; the concrete kind is irrelevant here. -/
abbrev IOErr := Nat

/-- Modelled from the spec: `CopyBuffer` (its source file `pt/copy_buffer.rs`
is not among the sources; §3 describes `Running(buffer)` as holding a
reusable byte buffer and in-flight read/write cursors).  Its `poll_copy`
behaviour is treated as an external oracle (see `PollCtx`), which is all the
claims about `transfer_one_direction` need. -/
structure CopyBuffer where
  pos : Nat
  cap : Nat
  buf : List Nat
deriving DecidableEq, Repr

/-- `TransferState` (src/pt/copy.rs:12-16). -/
inductive TransferState where
  | Running : CopyBuffer → TransferState
  | ShuttingDown : Nat → TransferState
  | Done : Nat → TransferState
deriving DecidableEq, Repr

/-- Oracle for the two I/O effects one `transfer_one_direction` call can
perform: what `buf.poll_copy(cx, r, w)` (reads from `r`/writes to `w`) and
`w.poll_shutdown(cx)` would return if invoked during this poll. -/
structure PollCtx where
  copyResult : Poll (Except IOErr Nat)
  shutdownResult : Poll (Except IOErr Unit)

/-- Result of one `transfer_one_direction` call: the state left behind, the
returned `Poll`, and how many times each I/O oracle was invoked
(`copyCalls` counts `poll_copy` calls, i.e. read/write activity;
`shutdownCalls` counts `poll_shutdown` calls). -/
structure TodResult where
  state : TransferState
  result : Poll (Except IOErr Nat)
  copyCalls : Nat
  shutdownCalls : Nat
deriving DecidableEq, Repr

/-- Model of `transfer_one_direction` (src/pt/copy.rs:246-273): the
`loop`/`match` over `TransferState`, with `ready!` returning `Pending`
early, `?` propagating an error without a state transition,
`Running → ShuttingDown` on a completed copy, `ShuttingDown → Done` on a
completed shutdown, and `Done(count)` returning `Ready(Ok(count))`
immediately. -/
def transfer_one_direction (ctx : PollCtx) : TransferState → TodResult
  | .Running buf =>
    match ctx.copyResult with
    | .Pending => ⟨.Running buf, .Pending, 1, 0⟩
    | .Ready (.error e) => ⟨.Running buf, .Ready (.error e), 1, 0⟩
    | .Ready (.ok count) =>
      -- *state = ShuttingDown(count); the loop continues into that arm
      match ctx.shutdownResult with
      | .Pending => ⟨.ShuttingDown count, .Pending, 1, 1⟩
      | .Ready (.error e) => ⟨.ShuttingDown count, .Ready (.error e), 1, 1⟩
      | .Ready (.ok _) => ⟨.Done count, .Ready (.ok count), 1, 1⟩
  | .ShuttingDown count =>
    match ctx.shutdownResult with
    | .Pending => ⟨.ShuttingDown count, .Pending, 0, 1⟩
    | .Ready (.error e) => ⟨.ShuttingDown count, .Ready (.error e), 0, 1⟩
    | .Ready (.ok _) => ⟨.Done count, .Ready (.ok count), 0, 1⟩
  | .Done count => ⟨.Done count, .Ready (.ok count), 0, 0⟩

/-! ## Helper lemmas -/

theorem one_le_utf8CharLen (c : Char) : 1 ≤ utf8CharLen c := by
  simp only [utf8CharLen]; split_ifs <;> omega

theorem length_le_byteLen (s : List Char) : s.length ≤ byteLen s := by
  induction s with
  | nil => simp [byteLen]
  | cons c cs ih =>
    have := one_le_utf8CharLen c
    simp only [byteLen, List.map_cons, List.sum_cons, List.length_cons] at *
    omega

theorem byteLen_append (s t : List Char) : byteLen (s ++ t) = byteLen s + byteLen t := by
  simp [byteLen]

theorem allAscii_cons {c : Char} {s : List Char} :
    allAscii (c :: s) = true ↔ c.toNat < 0x80 ∧ allAscii s = true := by
  simp [allAscii]

theorem allAscii_append {s t : List Char} :
    allAscii (s ++ t) = true ↔ allAscii s = true ∧ allAscii t = true := by
  simp [allAscii]

theorem utf8CharLen_ascii {c : Char} (h : c.toNat < 0x80) : utf8CharLen c = 1 := by
  simp [utf8CharLen, h]

theorem byteLen_ascii {s : List Char} (h : allAscii s = true) : byteLen s = s.length := by
  induction s with
  | nil => simp [byteLen]
  | cons c cs ih =>
    rw [allAscii_cons] at h
    simp only [byteLen, List.map_cons, List.sum_cons, List.length_cons] at *
    rw [utf8CharLen_ascii h.1, ih h.2]; omega

theorem allAscii_drop {s : List Char} (h : allAscii s = true) (i : Nat) :
    allAscii (s.drop i) = true := by
  simp only [allAscii, List.all_eq_true] at h ⊢
  exact fun c hc => h c (List.drop_subset i s hc)

theorem sliceFrom_ascii {s : List Char} (h : allAscii s = true) :
    ∀ i, i ≤ s.length → sliceFrom s i = some (s.drop i) := by
  induction s with
  | nil => intro i hi; match i with
    | 0 => simp [sliceFrom]
  | cons c cs ih =>
    intro i hi
    match i with
    | 0 => simp [sliceFrom]
    | i + 1 =>
      rw [allAscii_cons] at h
      have hc : utf8CharLen c = 1 := utf8CharLen_ascii h.1
      simp only [sliceFrom, hc]
      rw [if_pos (by omega)]
      simpa using ih h.2 i (by simpa using hi)

theorem sliceFrom_zero (s : List Char) : sliceFrom s 0 = some s := by
  cases s <;> rfl

theorem get_append_at {α : Type} (pre : List α) (x : α) (rest : List α) :
    (pre ++ x :: rest).get? pre.length = some x := by
  induction pre with
  | nil => rfl
  | cons a pre ih => simpa using ih

theorem get_append_lt {α : Type} (pre t : List α) {n : Nat} (h : n < pre.length) :
    (pre ++ t).get? n = pre.get? n := by
  induction pre generalizing n with
  | nil => simp at h
  | cons a pre ih =>
    match n with
    | 0 => rfl
    | n + 1 => simpa using ih (by simpa using h)

theorem drop_append_left {α : Type} (pre t : List α) :
    (pre ++ t).drop pre.length = t := by
  induction pre with
  | nil => rfl
  | cons a pre ih => simp [ih]

theorem drop_append_le {α : Type} (pre t : List α) :
    ∀ i, i ≤ pre.length → (pre ++ t).drop i = pre.drop i ++ t := by
  induction pre with
  | nil => intro i hi; match i with
    | 0 => simp
  | cons a pre ih =>
    intro i hi
    match i with
    | 0 => simp
    | i + 1 => simpa using ih i (by simpa using hi)

theorem get_none_of_le {α : Type} {s : List α} {n : Nat} (h : s.length ≤ n) :
    s.get? n = none := List.get?_eq_none.mpr h

theorem get_some_of_lt {α : Type} {s : List α} {n : Nat} (h : n < s.length) :
    ∃ c, s.get? n = some c := by
  cases hc : s.get? n with
  | none => exact absurd (List.get?_eq_none.mp hc) (by omega)
  | some c => exact ⟨c, rfl⟩

/-! ### Step equations for the `index_unescaped` scanner loop -/

section IuSteps

variable {s term : List Char} {f i : Nat} {acc : List Char} {c c2 : Char}

theorem iuGo_step_end (h : byteLen s ≤ i) :
    iuGo s term (f + 1) i acc = some (.ok (i, acc)) := by
  rw [iuGo, if_pos h]

theorem iuGo_step_term (h1 : ¬ byteLen s ≤ i) (h2 : s.get? i = some c) (h3 : c ∈ term) :
    iuGo s term (f + 1) i acc = some (.ok (i, acc)) := by
  rw [iuGo, if_neg h1]; simp only [h2]; rw [if_pos h3]

theorem iuGo_step_panic (h1 : ¬ byteLen s ≤ i) (h2 : s.get? i = none) :
    iuGo s term (f + 1) i acc = none := by
  rw [iuGo, if_neg h1]; simp only [h2]

theorem iuGo_step_plain (h1 : ¬ byteLen s ≤ i) (h2 : s.get? i = some c)
    (h3 : c ∉ term) (h4 : c ≠ '\\') :
    iuGo s term (f + 1) i acc = iuGo s term f (i + 1) (acc ++ [c]) := by
  rw [iuGo, if_neg h1]; simp only [h2]; rw [if_neg h3, if_neg h4]

theorem iuGo_step_esc_dangling (h1 : ¬ byteLen s ≤ i) (h2 : s.get? i = some '\\')
    (h3 : '\\' ∉ term) (h4 : byteLen s ≤ i + 1) :
    iuGo s term (f + 1) i acc = some (.error .ParseError) := by
  rw [iuGo, if_neg h1]; simp only [h2]; rw [if_neg h3]; simp only [if_true]; rw [if_pos h4]

theorem iuGo_step_esc_panic (h1 : ¬ byteLen s ≤ i) (h2 : s.get? i = some '\\')
    (h3 : '\\' ∉ term) (h4 : ¬ byteLen s ≤ i + 1) (h5 : s.get? (i + 1) = none) :
    iuGo s term (f + 1) i acc = none := by
  rw [iuGo, if_neg h1]; simp only [h2]; rw [if_neg h3]; simp only [if_true]; rw [if_neg h4]
  simp only [h5]

theorem iuGo_step_esc (h1 : ¬ byteLen s ≤ i) (h2 : s.get? i = some '\\')
    (h3 : '\\' ∉ term) (h4 : ¬ byteLen s ≤ i + 1) (h5 : s.get? (i + 1) = some c2) :
    iuGo s term (f + 1) i acc = iuGo s term f (i + 2) (acc ++ [c2]) := by
  rw [iuGo, if_neg h1]; simp only [h2]; rw [if_neg h3]; simp only [if_true]; rw [if_neg h4]
  simp only [h5]

end IuSteps

/-! ### Lemmas about the `index_unescaped` scanner -/

/-- On an ASCII string the scanner never panics (with enough fuel). -/
theorem iuGo_total {s : List Char} (hA : allAscii s = true) (term : List Char) :
    ∀ (f i : Nat) (acc : List Char), s.length < i + f → 0 < f →
      ∃ r, iuGo s term f i acc = some r := by
  intro f
  induction f with
  | zero => omega
  | succ f ih =>
    intro i acc hif _
    have hBL : byteLen s = s.length := byteLen_ascii hA
    by_cases hend : byteLen s ≤ i
    · exact ⟨_, iuGo_step_end hend⟩
    · obtain ⟨c, hc⟩ := get_some_of_lt (show i < s.length by omega)
      by_cases hterm : c ∈ term
      · exact ⟨_, iuGo_step_term hend hc hterm⟩
      · by_cases hbs : c = '\\'
        · subst hbs
          by_cases hend2 : byteLen s ≤ i + 1
          · exact ⟨_, iuGo_step_esc_dangling hend hc hterm hend2⟩
          · obtain ⟨c2, hc2⟩ := get_some_of_lt (show i + 1 < s.length by omega)
            obtain ⟨r, hr⟩ := ih (i + 2) (acc ++ [c2]) (by omega) (by omega)
            exact ⟨r, by rw [iuGo_step_esc hend hc hterm hend2 hc2]; exact hr⟩
        · obtain ⟨r, hr⟩ := ih (i + 1) (acc ++ [c]) (by omega) (by omega)
          exact ⟨r, by rw [iuGo_step_plain hend hc hterm hbs]; exact hr⟩

theorem index_unescaped_total {s : List Char} (hA : allAscii s = true) (term : List Char) :
    ∃ r, index_unescaped s term = some r :=
  iuGo_total hA term (byteLen s + 1) 0 []
    (by rw [byteLen_ascii hA]; omega) (by omega)

/-- A successful ASCII scan stops at an index between the start and the length. -/
theorem iuGo_ok_bound {s term : List Char} (hA : allAscii s = true) :
    ∀ (f i : Nat) (acc : List Char) (j : Nat) (u : List Char), i ≤ s.length →
      iuGo s term f i acc = some (.ok (j, u)) → i ≤ j ∧ j ≤ s.length := by
  intro f
  induction f with
  | zero => intro i acc j u _ h; simp [iuGo] at h
  | succ f ih =>
    intro i acc j u hi h
    have hBL : byteLen s = s.length := byteLen_ascii hA
    by_cases hend : byteLen s ≤ i
    · rw [iuGo_step_end hend] at h
      obtain ⟨h1, _⟩ := Prod.mk.injEq .. ▸ Except.ok.inj (Option.some.inj h)
      omega
    · obtain ⟨c, hc⟩ := get_some_of_lt (show i < s.length by omega)
      by_cases hterm : c ∈ term
      · rw [iuGo_step_term hend hc hterm] at h
        obtain ⟨h1, _⟩ := Prod.mk.injEq .. ▸ Except.ok.inj (Option.some.inj h)
        omega
      · by_cases hbs : c = '\\'
        · subst hbs
          by_cases hend2 : byteLen s ≤ i + 1
          · rw [iuGo_step_esc_dangling hend hc hterm hend2] at h
            exact absurd (Option.some.inj h) (by intro h0; injection h0)
          · obtain ⟨c2, hc2⟩ := get_some_of_lt (show i + 1 < s.length by omega)
            rw [iuGo_step_esc hend hc hterm hend2 hc2] at h
            have := ih (i + 2) (acc ++ [c2]) j u (by omega) h
            omega
        · rw [iuGo_step_plain hend hc hterm hbs] at h
          have := ih (i + 1) (acc ++ [c]) j u (by omega) h
          omega

theorem index_unescaped_ok_bound {s term : List Char} (hA : allAscii s = true)
    {j : Nat} {u : List Char} (h : index_unescaped s term = some (.ok (j, u))) :
    j ≤ s.length :=
  (iuGo_ok_bound hA (byteLen s + 1) 0 [] j u (by omega) h).2

/-- Fuel monotonicity: a result obtained with some fuel persists with more. -/
theorem iuGo_mono {s term : List Char} :
    ∀ (f g i : Nat) (acc : List Char) (r : Except PTError (Nat × List Char)),
      f ≤ g → iuGo s term f i acc = some r → iuGo s term g i acc = some r := by
  intro f
  induction f with
  | zero => intro g i acc r _ h; simp [iuGo] at h
  | succ f ih =>
    intro g i acc r hfg h
    match g with
    | 0 => omega
    | g + 1 =>
      by_cases hend : byteLen s ≤ i
      · rw [iuGo_step_end hend] at h; rw [iuGo_step_end hend]; exact h
      · cases hc : s.get? i with
        | none => rw [iuGo_step_panic hend hc] at h; exact absurd h (by simp)
        | some c =>
          by_cases hterm : c ∈ term
          · rw [iuGo_step_term hend hc hterm] at h
            rw [iuGo_step_term hend hc hterm]; exact h
          · by_cases hbs : c = '\\'
            · subst hbs
              by_cases hend2 : byteLen s ≤ i + 1
              · rw [iuGo_step_esc_dangling hend hc hterm hend2] at h
                rw [iuGo_step_esc_dangling hend hc hterm hend2]; exact h
              · cases hc2 : s.get? (i + 1) with
                | none =>
                  rw [iuGo_step_esc_panic hend hc hterm hend2 hc2] at h
                  exact absurd h (by simp)
                | some c2 =>
                  rw [iuGo_step_esc hend hc hterm hend2 hc2] at h
                  rw [iuGo_step_esc hend hc hterm hend2 hc2]
                  exact ih g (i + 2) (acc ++ [c2]) r (by omega) h
            · rw [iuGo_step_plain hend hc hterm hbs] at h
              rw [iuGo_step_plain hend hc hterm hbs]
              exact ih g (i + 1) (acc ++ [c]) r (by omega) h

/-- Appending a `';'` to a fully scanned ASCII string does not change an
`ok` scan whose terminator set contains `';'`: a scan that ended at a
terminator ends the same way, and a scan that ran off the end now stops at
the appended `';'` with the same index and unescaped prefix. -/
theorem iuGo_append_semi {s term : List Char} (hA : allAscii s = true) (hsemi : ';' ∈ term) :
    ∀ (f i : Nat) (acc : List Char) (j : Nat) (u : List Char),
      iuGo s term f i acc = some (.ok (j, u)) →
      iuGo (s ++ [';']) term f i acc = some (.ok (j, u)) := by
  have hA' : allAscii (s ++ [';']) = true := by
    rw [allAscii_append]; exact ⟨hA, by decide⟩
  have hBL : byteLen s = s.length := byteLen_ascii hA
  have hBL' : byteLen (s ++ [';']) = s.length + 1 := by
    rw [byteLen_ascii hA']; simp
  intro f
  induction f with
  | zero => intro i acc j u h; simp [iuGo] at h
  | succ f ih =>
    intro i acc j u h
    by_cases hend : byteLen s ≤ i
    · rw [iuGo_step_end hend] at h
      by_cases hend' : byteLen (s ++ [';']) ≤ i
      · rw [iuGo_step_end hend']; exact h
      · -- i = s.length: the appended ';' is an in-term terminator, same result
        have hi : i = s.length := by omega
        have hget : (s ++ [';']).get? i = some ';' := by
          rw [hi]; exact get_append_at s ';' []
        rw [iuGo_step_term hend' hget hsemi]; exact h
    · have hlt : i < s.length := by omega
      obtain ⟨c, hc⟩ := get_some_of_lt hlt
      have hc' : (s ++ [';']).get? i = some c := by
        rw [get_append_lt s [';'] hlt]; exact hc
      have hend' : ¬ byteLen (s ++ [';']) ≤ i := by omega
      by_cases hterm : c ∈ term
      · rw [iuGo_step_term hend hc hterm] at h
        rw [iuGo_step_term hend' hc' hterm]; exact h
      · by_cases hbs : c = '\\'
        · subst hbs
          by_cases hend2 : byteLen s ≤ i + 1
          · rw [iuGo_step_esc_dangling hend hc hterm hend2] at h
            exact absurd (Option.some.inj h) (by intro h0; injection h0)
          · have hlt2 : i + 1 < s.length := by omega
            obtain ⟨c2, hc2⟩ := get_some_of_lt hlt2
            have hc2' : (s ++ [';']).get? (i + 1) = some c2 := by
              rw [get_append_lt s [';'] hlt2]; exact hc2
            rw [iuGo_step_esc hend hc hterm hend2 hc2] at h
            rw [iuGo_step_esc hend' hc' hterm (by omega) hc2']
            exact ih (i + 2) (acc ++ [c2]) j u h
        · rw [iuGo_step_plain hend hc hterm hbs] at h
          rw [iuGo_step_plain hend' hc' hterm hbs]
          exact ih (i + 1) (acc ++ [c]) j u h

theorem index_unescaped_append_semi {s term : List Char} (hA : allAscii s = true)
    (hsemi : ';' ∈ term) {j : Nat} {u : List Char}
    (h : index_unescaped s term = some (.ok (j, u))) :
    index_unescaped (s ++ [';']) term = some (.ok (j, u)) := by
  rw [index_unescaped] at h ⊢
  exact iuGo_mono (byteLen s + 1) _ 0 [] _
    (by rw [byteLen_append]; omega)
    (iuGo_append_semi hA hsemi (byteLen s + 1) 0 [] j u h)

/-! ### Step equations for the `parse_client_parameters` loop -/

section PcpSteps

variable {params : List Char} {f i : Nat} {args : Args} {rest rest2 : List Char}
variable {off off2 : Nat} {key value : List Char} {e : PTError} {c : Char}

theorem pcpGo_step_slice_panic (h : sliceFrom params i = none) :
    pcpGo params (f + 1) i args = none := by
  rw [pcpGo]; simp only [h]

theorem pcpGo_step_key_panic (hs : sliceFrom params i = some rest)
    (h : index_unescaped rest ['=', ';'] = none) :
    pcpGo params (f + 1) i args = none := by
  rw [pcpGo]; simp only [hs, h]

theorem pcpGo_step_key_err (hs : sliceFrom params i = some rest)
    (h : index_unescaped rest ['=', ';'] = some (.error e)) :
    pcpGo params (f + 1) i args = some (.error e) := by
  rw [pcpGo]; simp only [hs, h]

theorem pcpGo_step_noeq_end (hs : sliceFrom params i = some rest)
    (h : index_unescaped rest ['=', ';'] = some (.ok (off, key)))
    (hend : byteLen params ≤ i + off) :
    pcpGo params (f + 1) i args = some (.error .ParseError) := by
  rw [pcpGo]; simp only [hs, h]; rw [if_pos hend]

theorem pcpGo_step_nth_panic (hs : sliceFrom params i = some rest)
    (h : index_unescaped rest ['=', ';'] = some (.ok (off, key)))
    (hend : ¬ byteLen params ≤ i + off) (hg : params.get? (i + off) = none) :
    pcpGo params (f + 1) i args = none := by
  rw [pcpGo]; simp only [hs, h]; rw [if_neg hend]; simp only [hg]

theorem pcpGo_step_noeq (hs : sliceFrom params i = some rest)
    (h : index_unescaped rest ['=', ';'] = some (.ok (off, key)))
    (hend : ¬ byteLen params ≤ i + off) (hg : params.get? (i + off) = some c)
    (hc : c ≠ '=') :
    pcpGo params (f + 1) i args = some (.error .ParseError) := by
  rw [pcpGo]; simp only [hs, h]; rw [if_neg hend]; simp only [hg]
  rw [if_pos hc]

theorem pcpGo_step_slice2_panic (hs : sliceFrom params i = some rest)
    (h : index_unescaped rest ['=', ';'] = some (.ok (off, key)))
    (hend : ¬ byteLen params ≤ i + off) (hg : params.get? (i + off) = some '=')
    (hs2 : sliceFrom params (i + off + 1) = none) :
    pcpGo params (f + 1) i args = none := by
  rw [pcpGo]; simp only [hs, h]; rw [if_neg hend]; simp only [hg]
  rw [if_neg (by simp)]; simp only [hs2]

theorem pcpGo_step_val_panic (hs : sliceFrom params i = some rest)
    (h : index_unescaped rest ['=', ';'] = some (.ok (off, key)))
    (hend : ¬ byteLen params ≤ i + off) (hg : params.get? (i + off) = some '=')
    (hs2 : sliceFrom params (i + off + 1) = some rest2)
    (h2 : index_unescaped rest2 [';'] = none) :
    pcpGo params (f + 1) i args = none := by
  rw [pcpGo]; simp only [hs, h]; rw [if_neg hend]; simp only [hg]
  rw [if_neg (by simp)]; simp only [hs2, h2]

theorem pcpGo_step_val_err (hs : sliceFrom params i = some rest)
    (h : index_unescaped rest ['=', ';'] = some (.ok (off, key)))
    (hend : ¬ byteLen params ≤ i + off) (hg : params.get? (i + off) = some '=')
    (hs2 : sliceFrom params (i + off + 1) = some rest2)
    (h2 : index_unescaped rest2 [';'] = some (.error e)) :
    pcpGo params (f + 1) i args = some (.error e) := by
  rw [pcpGo]; simp only [hs, h]; rw [if_neg hend]; simp only [hg]
  rw [if_neg (by simp)]; simp only [hs2, h2]

theorem pcpGo_step_empty_key (hs : sliceFrom params i = some rest)
    (h : index_unescaped rest ['=', ';'] = some (.ok (off, key)))
    (hend : ¬ byteLen params ≤ i + off) (hg : params.get? (i + off) = some '=')
    (hs2 : sliceFrom params (i + off + 1) = some rest2)
    (h2 : index_unescaped rest2 [';'] = some (.ok (off2, value)))
    (hk : key = []) :
    pcpGo params (f + 1) i args = some (.error .ParseError) := by
  rw [pcpGo]; simp only [hs, h]; rw [if_neg hend]; simp only [hg]
  rw [if_neg (by simp)]; simp only [hs2, h2]; rw [if_pos hk]

theorem pcpGo_step_last (hs : sliceFrom params i = some rest)
    (h : index_unescaped rest ['=', ';'] = some (.ok (off, key)))
    (hend : ¬ byteLen params ≤ i + off) (hg : params.get? (i + off) = some '=')
    (hs2 : sliceFrom params (i + off + 1) = some rest2)
    (h2 : index_unescaped rest2 [';'] = some (.ok (off2, value)))
    (hk : key ≠ []) (hfin : byteLen params ≤ i + off + 1 + off2) :
    pcpGo params (f + 1) i args = some (.ok (Args.add args key value)) := by
  rw [pcpGo]; simp only [hs, h]; rw [if_neg hend]; simp only [hg]
  rw [if_neg (by simp)]; simp only [hs2, h2]; rw [if_neg hk, if_pos hfin]

theorem pcpGo_step_next (hs : sliceFrom params i = some rest)
    (h : index_unescaped rest ['=', ';'] = some (.ok (off, key)))
    (hend : ¬ byteLen params ≤ i + off) (hg : params.get? (i + off) = some '=')
    (hs2 : sliceFrom params (i + off + 1) = some rest2)
    (h2 : index_unescaped rest2 [';'] = some (.ok (off2, value)))
    (hk : key ≠ []) (hfin : ¬ byteLen params ≤ i + off + 1 + off2) :
    pcpGo params (f + 1) i args =
      pcpGo params f (i + off + 1 + off2 + 1) (Args.add args key value) := by
  rw [pcpGo]; simp only [hs, h]; rw [if_neg hend]; simp only [hg]
  rw [if_neg (by simp)]; simp only [hs2, h2]; rw [if_neg hk, if_neg hfin]

end PcpSteps

/-! ### Step equations for the `parse_server_transport_options` loop -/

section PstoSteps

variable {s : List Char} {f i : Nat} {opts : Opts} {rest rest2 rest3 : List Char}
variable {off off2 off3 : Nat} {method_name key value : List Char} {e : PTError} {c : Char}

theorem pstoGo_step_name_err (hs : sliceFrom s i = some rest)
    (h1 : index_unescaped rest [':', '=', ';'] = some (.error e)) :
    pstoGo s (f + 1) i opts = some (.error e) := by
  rw [pstoGo]; simp only [hs, h1]

theorem pstoGo_step_nocolon_end (hs : sliceFrom s i = some rest)
    (h1 : index_unescaped rest [':', '=', ';'] = some (.ok (off, method_name)))
    (hend : byteLen s ≤ i + off) :
    pstoGo s (f + 1) i opts = some (.error .ParseError) := by
  rw [pstoGo]; simp only [hs, h1]; rw [if_pos hend]

theorem pstoGo_step_nocolon (hs : sliceFrom s i = some rest)
    (h1 : index_unescaped rest [':', '=', ';'] = some (.ok (off, method_name)))
    (hend : ¬ byteLen s ≤ i + off) (hg : s.get? (i + off) = some c) (hc : c ≠ ':') :
    pstoGo s (f + 1) i opts = some (.error .ParseError) := by
  rw [pstoGo]; simp only [hs, h1]; rw [if_neg hend]; simp only [hg]; rw [if_pos hc]

theorem pstoGo_step_key_err (hs : sliceFrom s i = some rest)
    (h1 : index_unescaped rest [':', '=', ';'] = some (.ok (off, method_name)))
    (hend : ¬ byteLen s ≤ i + off) (hg : s.get? (i + off) = some ':')
    (hs2 : sliceFrom s (i + off + 1) = some rest2)
    (h2 : index_unescaped rest2 ['=', ';'] = some (.error e)) :
    pstoGo s (f + 1) i opts = some (.error e) := by
  rw [pstoGo]; simp only [hs, h1]; rw [if_neg hend]; simp only [hg]
  rw [if_neg (by simp)]; simp only [hs2, h2]

theorem pstoGo_step_noeq_end (hs : sliceFrom s i = some rest)
    (h1 : index_unescaped rest [':', '=', ';'] = some (.ok (off, method_name)))
    (hend : ¬ byteLen s ≤ i + off) (hg : s.get? (i + off) = some ':')
    (hs2 : sliceFrom s (i + off + 1) = some rest2)
    (h2 : index_unescaped rest2 ['=', ';'] = some (.ok (off2, key)))
    (hend2 : byteLen s ≤ i + off + 1 + off2) :
    pstoGo s (f + 1) i opts = some (.error .ParseError) := by
  rw [pstoGo]; simp only [hs, h1]; rw [if_neg hend]; simp only [hg]
  rw [if_neg (by simp)]; simp only [hs2, h2]; rw [if_pos hend2]

theorem pstoGo_step_noeq (hs : sliceFrom s i = some rest)
    (h1 : index_unescaped rest [':', '=', ';'] = some (.ok (off, method_name)))
    (hend : ¬ byteLen s ≤ i + off) (hg : s.get? (i + off) = some ':')
    (hs2 : sliceFrom s (i + off + 1) = some rest2)
    (h2 : index_unescaped rest2 ['=', ';'] = some (.ok (off2, key)))
    (hend2 : ¬ byteLen s ≤ i + off + 1 + off2)
    (hg2 : s.get? (i + off + 1 + off2) = some c) (hc : c ≠ '=') :
    pstoGo s (f + 1) i opts = some (.error .ParseError) := by
  rw [pstoGo]; simp only [hs, h1]; rw [if_neg hend]; simp only [hg]
  rw [if_neg (by simp)]; simp only [hs2, h2]; rw [if_neg hend2]; simp only [hg2]
  rw [if_pos hc]

theorem pstoGo_step_val_err (hs : sliceFrom s i = some rest)
    (h1 : index_unescaped rest [':', '=', ';'] = some (.ok (off, method_name)))
    (hend : ¬ byteLen s ≤ i + off) (hg : s.get? (i + off) = some ':')
    (hs2 : sliceFrom s (i + off + 1) = some rest2)
    (h2 : index_unescaped rest2 ['=', ';'] = some (.ok (off2, key)))
    (hend2 : ¬ byteLen s ≤ i + off + 1 + off2)
    (hg2 : s.get? (i + off + 1 + off2) = some '=')
    (hs3 : sliceFrom s (i + off + 1 + off2 + 1) = some rest3)
    (h3 : index_unescaped rest3 [';'] = some (.error e)) :
    pstoGo s (f + 1) i opts = some (.error e) := by
  rw [pstoGo]; simp only [hs, h1]; rw [if_neg hend]; simp only [hg]
  rw [if_neg (by simp)]; simp only [hs2, h2]; rw [if_neg hend2]; simp only [hg2]
  rw [if_neg (by simp)]; simp only [hs3, h3]

theorem pstoGo_step_empty_name (hs : sliceFrom s i = some rest)
    (h1 : index_unescaped rest [':', '=', ';'] = some (.ok (off, method_name)))
    (hend : ¬ byteLen s ≤ i + off) (hg : s.get? (i + off) = some ':')
    (hs2 : sliceFrom s (i + off + 1) = some rest2)
    (h2 : index_unescaped rest2 ['=', ';'] = some (.ok (off2, key)))
    (hend2 : ¬ byteLen s ≤ i + off + 1 + off2)
    (hg2 : s.get? (i + off + 1 + off2) = some '=')
    (hs3 : sliceFrom s (i + off + 1 + off2 + 1) = some rest3)
    (h3 : index_unescaped rest3 [';'] = some (.ok (off3, value)))
    (hn : method_name = []) :
    pstoGo s (f + 1) i opts = some (.error .ParseError) := by
  rw [pstoGo]; simp only [hs, h1]; rw [if_neg hend]; simp only [hg]
  rw [if_neg (by simp)]; simp only [hs2, h2]; rw [if_neg hend2]; simp only [hg2]
  rw [if_neg (by simp)]; simp only [hs3, h3]; rw [if_pos hn]

theorem pstoGo_step_empty_key (hs : sliceFrom s i = some rest)
    (h1 : index_unescaped rest [':', '=', ';'] = some (.ok (off, method_name)))
    (hend : ¬ byteLen s ≤ i + off) (hg : s.get? (i + off) = some ':')
    (hs2 : sliceFrom s (i + off + 1) = some rest2)
    (h2 : index_unescaped rest2 ['=', ';'] = some (.ok (off2, key)))
    (hend2 : ¬ byteLen s ≤ i + off + 1 + off2)
    (hg2 : s.get? (i + off + 1 + off2) = some '=')
    (hs3 : sliceFrom s (i + off + 1 + off2 + 1) = some rest3)
    (h3 : index_unescaped rest3 [';'] = some (.ok (off3, value)))
    (hn : method_name ≠ []) (hk : key = []) :
    pstoGo s (f + 1) i opts = some (.error .ParseError) := by
  rw [pstoGo]; simp only [hs, h1]; rw [if_neg hend]; simp only [hg]
  rw [if_neg (by simp)]; simp only [hs2, h2]; rw [if_neg hend2]; simp only [hg2]
  rw [if_neg (by simp)]; simp only [hs3, h3]; rw [if_neg hn, if_pos hk]

theorem pstoGo_step_last (hs : sliceFrom s i = some rest)
    (h1 : index_unescaped rest [':', '=', ';'] = some (.ok (off, method_name)))
    (hend : ¬ byteLen s ≤ i + off) (hg : s.get? (i + off) = some ':')
    (hs2 : sliceFrom s (i + off + 1) = some rest2)
    (h2 : index_unescaped rest2 ['=', ';'] = some (.ok (off2, key)))
    (hend2 : ¬ byteLen s ≤ i + off + 1 + off2)
    (hg2 : s.get? (i + off + 1 + off2) = some '=')
    (hs3 : sliceFrom s (i + off + 1 + off2 + 1) = some rest3)
    (h3 : index_unescaped rest3 [';'] = some (.ok (off3, value)))
    (hn : method_name ≠ []) (hk : key ≠ [])
    (hfin : byteLen s ≤ i + off + 1 + off2 + 1 + off3) :
    pstoGo s (f + 1) i opts = some (.ok (Opts.addEntry opts method_name key value)) := by
  rw [pstoGo]; simp only [hs, h1]; rw [if_neg hend]; simp only [hg]
  rw [if_neg (by simp)]; simp only [hs2, h2]; rw [if_neg hend2]; simp only [hg2]
  rw [if_neg (by simp)]; simp only [hs3, h3]; rw [if_neg hn, if_neg hk, if_pos hfin]

theorem pstoGo_step_next (hs : sliceFrom s i = some rest)
    (h1 : index_unescaped rest [':', '=', ';'] = some (.ok (off, method_name)))
    (hend : ¬ byteLen s ≤ i + off) (hg : s.get? (i + off) = some ':')
    (hs2 : sliceFrom s (i + off + 1) = some rest2)
    (h2 : index_unescaped rest2 ['=', ';'] = some (.ok (off2, key)))
    (hend2 : ¬ byteLen s ≤ i + off + 1 + off2)
    (hg2 : s.get? (i + off + 1 + off2) = some '=')
    (hs3 : sliceFrom s (i + off + 1 + off2 + 1) = some rest3)
    (h3 : index_unescaped rest3 [';'] = some (.ok (off3, value)))
    (hn : method_name ≠ []) (hk : key ≠ [])
    (hfin : ¬ byteLen s ≤ i + off + 1 + off2 + 1 + off3) :
    pstoGo s (f + 1) i opts =
      pstoGo s f (i + off + 1 + off2 + 1 + off3 + 1)
        (Opts.addEntry opts method_name key value) := by
  rw [pstoGo]; simp only [hs, h1]; rw [if_neg hend]; simp only [hg]
  rw [if_neg (by simp)]; simp only [hs2, h2]; rw [if_neg hend2]; simp only [hg2]
  rw [if_neg (by simp)]; simp only [hs3, h3]; rw [if_neg hn, if_neg hk, if_neg hfin]

end PstoSteps

/-! ### Totality of the two parsers on ASCII input -/

theorem pcpGo_total {params : List Char} (hA : allAscii params = true) :
    ∀ (f i : Nat) (args : Args), params.length < i + f → 0 < f → i ≤ params.length →
      ∃ r, pcpGo params f i args = some r := by
  intro f
  induction f with
  | zero => omega
  | succ f ih =>
    intro i args hif _ hi
    have hBL : byteLen params = params.length := byteLen_ascii hA
    have hslice : sliceFrom params i = some (params.drop i) := sliceFrom_ascii hA i hi
    have hAd : allAscii (params.drop i) = true := allAscii_drop hA i
    obtain ⟨r0, hr0⟩ := index_unescaped_total hAd ['=', ';']
    cases r0 with
    | error e => exact ⟨_, pcpGo_step_key_err hslice hr0⟩
    | ok p =>
      obtain ⟨off, key⟩ := p
      have hb : off ≤ (params.drop i).length := index_unescaped_ok_bound hAd hr0
      have hdl : (params.drop i).length = params.length - i := by simp
      by_cases hend : byteLen params ≤ i + off
      · exact ⟨_, pcpGo_step_noeq_end hslice hr0 hend⟩
      · obtain ⟨c, hc⟩ := get_some_of_lt (show i + off < params.length by omega)
        by_cases hceq : c = '='
        · subst hceq
          have hi2 : i + off + 1 ≤ params.length := by omega
          have hslice2 : sliceFrom params (i + off + 1) = some (params.drop (i + off + 1)) :=
            sliceFrom_ascii hA _ hi2
          have hAd2 : allAscii (params.drop (i + off + 1)) = true := allAscii_drop hA _
          obtain ⟨r1, hr1⟩ := index_unescaped_total hAd2 [';']
          cases r1 with
          | error e => exact ⟨_, pcpGo_step_val_err hslice hr0 hend hc hslice2 hr1⟩
          | ok p2 =>
            obtain ⟨off2, value⟩ := p2
            have hb2 : off2 ≤ (params.drop (i + off + 1)).length :=
              index_unescaped_ok_bound hAd2 hr1
            have hdl2 : (params.drop (i + off + 1)).length = params.length - (i + off + 1) := by
              simp
            by_cases hk : key = []
            · exact ⟨_, pcpGo_step_empty_key hslice hr0 hend hc hslice2 hr1 hk⟩
            · by_cases hfin : byteLen params ≤ i + off + 1 + off2
              · exact ⟨_, pcpGo_step_last hslice hr0 hend hc hslice2 hr1 hk hfin⟩
              · obtain ⟨r2, hr2⟩ := ih (i + off + 1 + off2 + 1) (Args.add args key value)
                  (by omega) (by omega) (by omega)
                exact ⟨r2, by
                  rw [pcpGo_step_next hslice hr0 hend hc hslice2 hr1 hk hfin]; exact hr2⟩
        · exact ⟨_, pcpGo_step_noeq hslice hr0 hend hc hceq⟩

theorem parse_client_parameters_total {params : List Char} (hA : allAscii params = true) :
    ∃ r, parse_client_parameters params = some r := by
  by_cases h : params = []
  · exact ⟨_, by rw [parse_client_parameters, if_pos h]⟩
  · rw [parse_client_parameters, if_neg h]
    exact pcpGo_total hA (byteLen params + 1) 0 []
      (by rw [byteLen_ascii hA]; omega) (by omega) (by omega)

theorem pstoGo_total {s : List Char} (hA : allAscii s = true) :
    ∀ (f i : Nat) (opts : Opts), s.length < i + f → 0 < f → i ≤ s.length →
      ∃ r, pstoGo s f i opts = some r := by
  intro f
  induction f with
  | zero => omega
  | succ f ih =>
    intro i opts hif _ hi
    have hBL : byteLen s = s.length := byteLen_ascii hA
    have hslice : sliceFrom s i = some (s.drop i) := sliceFrom_ascii hA i hi
    have hAd : allAscii (s.drop i) = true := allAscii_drop hA i
    obtain ⟨r0, hr0⟩ := index_unescaped_total hAd [':', '=', ';']
    cases r0 with
    | error e => exact ⟨_, pstoGo_step_name_err hslice hr0⟩
    | ok p =>
      obtain ⟨off, method_name⟩ := p
      have hb : off ≤ (s.drop i).length := index_unescaped_ok_bound hAd hr0
      have hdl : (s.drop i).length = s.length - i := by simp
      by_cases hend : byteLen s ≤ i + off
      · exact ⟨_, pstoGo_step_nocolon_end hslice hr0 hend⟩
      · obtain ⟨c, hc⟩ := get_some_of_lt (show i + off < s.length by omega)
        by_cases hceq : c = ':'
        · subst hceq
          have hi2 : i + off + 1 ≤ s.length := by omega
          have hslice2 : sliceFrom s (i + off + 1) = some (s.drop (i + off + 1)) :=
            sliceFrom_ascii hA _ hi2
          have hAd2 : allAscii (s.drop (i + off + 1)) = true := allAscii_drop hA _
          obtain ⟨r1, hr1⟩ := index_unescaped_total hAd2 ['=', ';']
          cases r1 with
          | error e => exact ⟨_, pstoGo_step_key_err hslice hr0 hend hc hslice2 hr1⟩
          | ok p2 =>
            obtain ⟨off2, key⟩ := p2
            have hb2 : off2 ≤ (s.drop (i + off + 1)).length :=
              index_unescaped_ok_bound hAd2 hr1
            have hdl2 : (s.drop (i + off + 1)).length = s.length - (i + off + 1) := by simp
            by_cases hend2 : byteLen s ≤ i + off + 1 + off2
            · exact ⟨_, pstoGo_step_noeq_end hslice hr0 hend hc hslice2 hr1 hend2⟩
            · obtain ⟨c2, hc2⟩ := get_some_of_lt
                (show i + off + 1 + off2 < s.length by omega)
              by_cases hceq2 : c2 = '='
              · subst hceq2
                have hi3 : i + off + 1 + off2 + 1 ≤ s.length := by omega
                have hslice3 :
                    sliceFrom s (i + off + 1 + off2 + 1) =
                      some (s.drop (i + off + 1 + off2 + 1)) := sliceFrom_ascii hA _ hi3
                have hAd3 : allAscii (s.drop (i + off + 1 + off2 + 1)) = true :=
                  allAscii_drop hA _
                obtain ⟨r2, hr2⟩ := index_unescaped_total hAd3 [';']
                cases r2 with
                | error e =>
                  exact ⟨_, pstoGo_step_val_err hslice hr0 hend hc hslice2 hr1 hend2 hc2
                    hslice3 hr2⟩
                | ok p3 =>
                  obtain ⟨off3, value⟩ := p3
                  have hb3 : off3 ≤ (s.drop (i + off + 1 + off2 + 1)).length :=
                    index_unescaped_ok_bound hAd3 hr2
                  have hdl3 :
                      (s.drop (i + off + 1 + off2 + 1)).length =
                        s.length - (i + off + 1 + off2 + 1) := by simp
                  by_cases hn : method_name = []
                  · exact ⟨_, pstoGo_step_empty_name hslice hr0 hend hc hslice2 hr1 hend2
                      hc2 hslice3 hr2 hn⟩
                  · by_cases hk : key = []
                    · exact ⟨_, pstoGo_step_empty_key hslice hr0 hend hc hslice2 hr1 hend2
                        hc2 hslice3 hr2 hn hk⟩
                    · by_cases hfin : byteLen s ≤ i + off + 1 + off2 + 1 + off3
                      · exact ⟨_, pstoGo_step_last hslice hr0 hend hc hslice2 hr1 hend2
                          hc2 hslice3 hr2 hn hk hfin⟩
                      · obtain ⟨r3, hr3⟩ := ih (i + off + 1 + off2 + 1 + off3 + 1)
                          (Opts.addEntry opts method_name key value)
                          (by omega) (by omega) (by omega)
                        exact ⟨r3, by
                          rw [pstoGo_step_next hslice hr0 hend hc hslice2 hr1 hend2 hc2
                            hslice3 hr2 hn hk hfin]
                          exact hr3⟩
              · exact ⟨_, pstoGo_step_noeq hslice hr0 hend hc hslice2 hr1 hend2 hc2 hceq2⟩
        · exact ⟨_, pstoGo_step_nocolon hslice hr0 hend hc hceq⟩

theorem parse_server_transport_options_total {s : List Char} (hA : allAscii s = true) :
    ∃ r, parse_server_transport_options s = some r := by
  by_cases h : s = []
  · exact ⟨_, by rw [parse_server_transport_options, if_pos h]⟩
  · rw [parse_server_transport_options, if_neg h]
    exact pstoGo_total hA (byteLen s + 1) 0 []
      (by rw [byteLen_ascii hA]; omega) (by omega) (by omega)

/-! ### The encoder round-trip on a single escaped pair -/

theorem escapeSm_cons (c : Char) (s : List Char) :
    escapeSm (c :: s) =
      (if c = '\\' ∨ c ∈ ['=', ','] then ['\\', c] else [c]) ++ escapeSm s := rfl

theorem allAscii_escapeSm {s : List Char} (h : allAscii s = true) :
    allAscii (escapeSm s) = true := by
  induction s with
  | nil => decide
  | cons c cs ih =>
    rw [allAscii_cons] at h
    rw [escapeSm_cons, allAscii_append]
    refine ⟨?_, ih h.2⟩
    by_cases hc : c = '\\' ∨ c ∈ ['=', ',']
    · rw [if_pos hc]; simp [allAscii]; exact h.1
    · rw [if_neg hc]; simp [allAscii]; exact h.1

theorem length_le_escapeSm (s : List Char) : s.length ≤ (escapeSm s).length := by
  induction s with
  | nil => simp [escapeSm, backslash_escape]
  | cons c cs ih =>
    rw [escapeSm_cons, List.length_append]
    by_cases hc : c = '\\' ∨ c ∈ ['=', ',']
    · rw [if_pos hc]; simp; omega
    · rw [if_neg hc]; simp; omega

/-- Scanning an escaped string followed by a terminator: the scanner walks the
whole escaped prefix (un-escaping it back) and stops at the terminator.
`term` may be the key terminator set `['=', ';']` or the value set `[';']`;
the scanned string must not contain `';'` (which the encoder never escapes). -/
theorem iuGo_escape_term {k : List Char} (hks : ';' ∉ k) {term : List Char}
    (hsub : ∀ c ∈ term, c = '=' ∨ c = ';') (hbs : '\\' ∉ term) :
    ∀ (f : Nat) (s pre post acc : List Char) (t : Char),
      s = pre ++ escapeSm k ++ t :: post → t ∈ term → k.length < f →
      iuGo s term f pre.length acc =
        some (.ok (pre.length + (escapeSm k).length, acc ++ k)) := by
  induction k with
  | nil =>
    intro f s pre post acc t hs ht hf
    match f with
    | 0 => omega
    | f + 1 =>
      have hs' : s = pre ++ t :: post := by simpa [escapeSm, backslash_escape] using hs
      have hlen : pre.length < s.length := by rw [hs']; simp
      have hget : s.get? pre.length = some t := by rw [hs']; exact get_append_at pre t post
      have hend : ¬ byteLen s ≤ pre.length := by
        have := length_le_byteLen s; omega
      rw [iuGo_step_term hend hget ht]
      simp [escapeSm, backslash_escape]
  | cons c k ih =>
    intro f s pre post acc t hs ht hf
    match f with
    | 0 => omega
    | f + 1 =>
      have hks' : ';' ∉ k := fun h => hks (List.mem_cons_of_mem c h)
      have hcsemi : c ≠ ';' := fun h => hks (h ▸ List.mem_cons_self c k)
      by_cases hesc : c = '\\' ∨ c ∈ ['=', ',']
      · -- escaped character: the scanner consumes `'\\'` then `c`
        have hsplit : s = pre ++ '\\' :: (c :: (escapeSm k ++ t :: post)) := by
          rw [hs, escapeSm_cons, if_pos hesc]; simp
        have hsplit2 : s = (pre ++ ['\\']) ++ c :: (escapeSm k ++ t :: post) := by
          rw [hsplit]; simp
        have hlen : pre.length + 1 < s.length := by rw [hsplit]; simp
        have hbl := length_le_byteLen s
        have hget1 : s.get? pre.length = some '\\' := by
          rw [hsplit]; exact get_append_at pre '\\' _
        have hget2 : s.get? (pre.length + 1) = some c := by
          rw [hsplit2, show pre.length + 1 = (pre ++ ['\\']).length by simp]
          exact get_append_at (pre ++ ['\\']) c _
        rw [iuGo_step_esc (by omega) hget1 hbs (by omega) hget2]
        have hs' : s = (pre ++ ['\\', c]) ++ escapeSm k ++ t :: post := by
          rw [hs, escapeSm_cons, if_pos hesc]; simp
        have := ih hks' f s (pre ++ ['\\', c]) post (acc ++ [c]) t hs' ht (by
          simp at hf; omega)
        rw [show (pre ++ ['\\', c]).length = pre.length + 2 by simp] at this
        rw [this, escapeSm_cons, if_pos hesc]
        simp; omega
      · -- plain character: copied through in one step
        have hceq : c ≠ '=' := by
          intro h0; exact hesc (Or.inr (by rw [h0]; simp))
        have hcbs : c ≠ '\\' := fun h0 => hesc (Or.inl h0)
        have hcterm : c ∉ term := by
          intro hmem
          rcases hsub c hmem with h0 | h0
          · exact hceq h0
          · exact hcsemi h0
        have hsplit : s = pre ++ c :: (escapeSm k ++ t :: post) := by
          rw [hs, escapeSm_cons, if_neg hesc]; simp
        have hlen : pre.length < s.length := by rw [hsplit]; simp
        have hbl := length_le_byteLen s
        have hget1 : s.get? pre.length = some c := by
          rw [hsplit]; exact get_append_at pre c _
        rw [iuGo_step_plain (by omega) hget1 hcterm hcbs]
        have hs' : s = (pre ++ [c]) ++ escapeSm k ++ t :: post := by
          rw [hs, escapeSm_cons, if_neg hesc]; simp
        have := ih hks' f s (pre ++ [c]) post (acc ++ [c]) t hs' ht (by
          simp at hf; omega)
        rw [show (pre ++ [c]).length = pre.length + 1 by simp] at this
        rw [this, escapeSm_cons, if_neg hesc]
        simp; omega

/-- Scanning an escaped string that runs to the end of the input (the value
position): the scanner walks the whole escaped suffix and stops at the end. -/
theorem iuGo_escape_end {v : List Char} (hvs : ';' ∉ v) :
    ∀ (f : Nat) (s pre acc : List Char),
      s = pre ++ escapeSm v → allAscii s = true → v.length < f →
      iuGo s [';'] f pre.length acc =
        some (.ok (pre.length + (escapeSm v).length, acc ++ v)) := by
  induction v with
  | nil =>
    intro f s pre acc hs hA hf
    match f with
    | 0 => omega
    | f + 1 =>
      have hs' : s = pre := by simpa [escapeSm, backslash_escape] using hs
      have hend : byteLen s ≤ pre.length := by
        rw [byteLen_ascii hA, hs']
      rw [iuGo_step_end hend]
      simp [escapeSm, backslash_escape]
  | cons c v ih =>
    intro f s pre acc hs hA hf
    match f with
    | 0 => omega
    | f + 1 =>
      have hvs' : ';' ∉ v := fun h => hvs (List.mem_cons_of_mem c h)
      have hcsemi : c ≠ ';' := fun h => hvs (h ▸ List.mem_cons_self c v)
      have hBL : byteLen s = s.length := byteLen_ascii hA
      by_cases hesc : c = '\\' ∨ c ∈ ['=', ',']
      · have hsplit : s = pre ++ '\\' :: (c :: escapeSm v) := by
          rw [hs, escapeSm_cons, if_pos hesc]; simp
        have hsplit2 : s = (pre ++ ['\\']) ++ c :: escapeSm v := by
          rw [hsplit]; simp
        have hlen : pre.length + 1 < s.length := by rw [hsplit]; simp
        have hget1 : s.get? pre.length = some '\\' := by
          rw [hsplit]; exact get_append_at pre '\\' _
        have hget2 : s.get? (pre.length + 1) = some c := by
          rw [hsplit2, show pre.length + 1 = (pre ++ ['\\']).length by simp]
          exact get_append_at (pre ++ ['\\']) c _
        rw [iuGo_step_esc (by omega) hget1 (by decide) (by omega) hget2]
        have hs' : s = (pre ++ ['\\', c]) ++ escapeSm v := by
          rw [hs, escapeSm_cons, if_pos hesc]; simp
        have := ih hvs' f s (pre ++ ['\\', c]) (acc ++ [c]) hs' hA (by
          simp at hf; omega)
        rw [show (pre ++ ['\\', c]).length = pre.length + 2 by simp] at this
        rw [this, escapeSm_cons, if_pos hesc]
        simp; omega
      · have hceq : c ≠ '=' := by
          intro h0; exact hesc (Or.inr (by rw [h0]; simp))
        have hcbs : c ≠ '\\' := fun h0 => hesc (Or.inl h0)
        have hcterm : c ∉ [';'] := by simp [hcsemi]
        have hsplit : s = pre ++ c :: escapeSm v := by
          rw [hs, escapeSm_cons, if_neg hesc]; simp
        have hlen : pre.length < s.length := by rw [hsplit]; simp
        have hget1 : s.get? pre.length = some c := by
          rw [hsplit]; exact get_append_at pre c _
        rw [iuGo_step_plain (by omega) hget1 hcterm hcbs]
        have hs' : s = (pre ++ [c]) ++ escapeSm v := by
          rw [hs, escapeSm_cons, if_neg hesc]; simp
        have := ih hvs' f s (pre ++ [c]) (acc ++ [c]) hs' hA (by
          simp at hf; omega)
        rw [show (pre ++ [c]).length = pre.length + 1 by simp] at this
        rw [this, escapeSm_cons, if_neg hesc]
        simp; omega

/-- Encoding a one-key one-value map produces `escape(k) ++ "=" ++ escape(v)`. -/
theorem encode_single (k v : List Char) :
    encode_smethod_args (some [(k, [v])]) = escapeSm k ++ '=' :: escapeSm v := rfl

/-! ## Theorems about the claims -/

/-- C2 — the claim says `get_managed_transport_version` returns `Ok("1")`
exactly when the comma-separated token list of the variable's value contains
the token `"1"`.  The code instead splits on the *empty* pattern (characters):
for the value `"12"` the comma token list is `["12"]`, which does not contain
`"1"`, yet the function returns `Ok("1")` — contradicting its own doc comment
("The only version we understand is `1`"). -/
theorem c2_version_char_split_bug :
    get_managed_transport_version (str "12") = .ok (str "1") ∧
    (str "1") ∉ commaSplit (str "12") := by decide

/-- C3 — once a direction's transfer state is `Done(count)`, every further
`transfer_one_direction` call returns `Ready(Ok(count))` with the same count,
leaves the state unchanged, and performs no `poll_copy` (read/write) and no
`poll_shutdown` calls, for every I/O oracle. -/
theorem c3_done_state_idempotent (ctx : PollCtx) (count : Nat) :
    transfer_one_direction ctx (.Done count) =
      ⟨.Done count, .Ready (.ok count), 0, 0⟩ := rfl

/-- C4 — the standard socket parser rejects the unbracketed IPv6 form, and
`resolve_addr` on `"1:2::3:4:9999"` equals `resolve_addr` on
`"[1:2::3:4]:9999"` via the bracket-inserting fallback, both resolving to
`[1:2::3:4]:9999`. -/
theorem c4_unbracketed_ipv6_fallback :
    parseSocketAddr (str "1:2::3:4:9999") = none ∧
    resolve_addr (str "1:2::3:4:9999") = resolve_addr (str "[1:2::3:4]:9999") ∧
    resolve_addr (str "[1:2::3:4]:9999") =
      .ok ⟨.v6 [1, 2, 0, 0, 0, 0, 3, 4], 9999⟩ := by decide

/-- C6 — `parse_server_transport_options` groups by transport name and a
repeated name appends to that name's argument map in encounter order:
`"t1:k=v1;t2:k=v2;t1:k=v3"` parses to
`{t1: {k: [v1, v3]}, t2: {k: [v2]}}`. -/
theorem c6_repeated_names_append :
    parse_server_transport_options (str "t1:k=v1;t2:k=v2;t1:k=v3") =
      some (.ok [(str "t1", [(str "k", [str "v1", str "v3"])]),
                 (str "t2", [(str "k", [str "v2"])])]) := by decide

/-- C8 — `keyword_is_safe` accepts exactly `[A-Za-z0-9_-]`, but the
`arg_is_safe` half of the claim fails: the code casts each `char` to `u8`
(truncation), so the string `"Ł"` (U+0141, whose UTF-8 bytes `C5 81` are both
≥ 0x80) truncates to `0x41` and is accepted, although the claim (and the
function's own doc comment, `<any US-ASCII character but NUL or NL>`)
requires it to be rejected. -/
theorem c8_arg_is_safe_truncation_bug :
    keyword_is_safe (str "azAZ09-_") = true ∧
    keyword_is_safe (str "CMETHOD:") = false ∧
    arg_is_safe [Char.ofNat 0x141] = true ∧
    utf8Bytes (Char.ofNat 0x141) = [0xC5, 0x81] ∧
    (utf8Bytes (Char.ofNat 0x141)).all (fun b => 0x80 ≤ b) = true := by decide

set_option maxRecDepth 20000 in
/-- C9 — encoding any single-character string of byte value 0–255 with
`encode_cstring` and decoding with `decode_cstring` reproduces it exactly. -/
theorem c9_cstring_roundtrip (n : Fin 256) :
    decode_cstring (encode_cstring [Char.ofNat n.val]) = .ok [Char.ofNat n.val] := by
  revert n; decide

/-- C1 (counterexample) — the claimed round-trip
`parse_client_parameters(encode_smethod_args(Some(m))) = Ok(m)` fails already
for the map `{a: [1, 2]}` built by two `add` calls: the encoder joins the
pairs with an *unescaped* comma, producing `"a=1,a=2"`, which the
semicolon-grammar client parser reads back as `{a: ["1,a=2"]}`. -/
theorem c1_roundtrip_counterexample :
    parse_client_parameters (encode_smethod_args
        (some (Args.add (Args.add [] (str "a") (str "1")) (str "a") (str "2")))) ≠
      some (.ok (Args.add (Args.add [] (str "a") (str "1")) (str "a") (str "2"))) := by
  decide

/-- C10 (counterexample) — `index_unescaped` and both parsers panic (modelled
as `none`) on the one-character non-ASCII input `"é"`: the scan loop bounds
`i` by the UTF-8 *byte* length (2) but indexes *characters*
(`chars().nth(i).unwrap()`), so `nth(1)` is `None` and the `unwrap` panics. -/
theorem c10_nonascii_panic_counterexample :
    index_unescaped [Char.ofNat 0xE9] ['=', ';'] = none ∧
    parse_client_parameters [Char.ofNat 0xE9] = none ∧
    parse_server_transport_options [Char.ofNat 0xE9] = none := by decide

/-- C10 (amended) — on ASCII-only input (where byte and character indices
coincide) `index_unescaped` and both parsers always return a value — `Ok` or
`ParseError` — and never panic. -/
theorem c10_ascii_total (s term : List Char) (hA : allAscii s = true) :
    (∃ r, index_unescaped s term = some r) ∧
    (∃ r, parse_client_parameters s = some r) ∧
    (∃ r, parse_server_transport_options s = some r) :=
  ⟨index_unescaped_total hA term, parse_client_parameters_total hA,
    parse_server_transport_options_total hA⟩

/-- Witness for `c10_ascii_total` at a concrete ASCII input. -/
theorem c10_ascii_total_witness :
    allAscii (str "k=v") = true ∧
    ((∃ r, index_unescaped (str "k=v") [';'] = some r) ∧
     (∃ r, parse_client_parameters (str "k=v") = some r) ∧
     (∃ r, parse_server_transport_options (str "k=v") = some r)) :=
  ⟨by decide, c10_ascii_total (str "k=v") [';'] (by decide)⟩

/-- Helper for C7: if the client-parameter loop accepts the ASCII string `p`
from position `i`, then on `p ++ ";"` the same loop reaches the end of `p`,
skips the appended semicolon, and fails on the empty trailing segment with a
`ParseError` (the "no equals sign" error of the source). -/
theorem pcpGo_append_semi {p : List Char} (hA : allAscii p = true) :
    ∀ (f i : Nat) (args m : Args), i ≤ p.length →
      pcpGo p f i args = some (.ok m) →
      pcpGo (p ++ [';']) (f + 1) i args = some (.error .ParseError) := by
  have hA' : allAscii (p ++ [';']) = true := by
    rw [allAscii_append]; exact ⟨hA, by decide⟩
  have hBL : byteLen p = p.length := byteLen_ascii hA
  have hBL' : byteLen (p ++ [';']) = p.length + 1 := by
    rw [byteLen_ascii hA']; simp
  intro f
  induction f with
  | zero => intro i args m _ h; simp [pcpGo] at h
  | succ f ih =>
    intro i args m hi h
    have hslice : sliceFrom p i = some (p.drop i) := sliceFrom_ascii hA i hi
    have hAd : allAscii (p.drop i) = true := allAscii_drop hA i
    obtain ⟨r0, hr0⟩ := index_unescaped_total hAd ['=', ';']
    cases r0 with
    | error e =>
      rw [pcpGo_step_key_err hslice hr0] at h
      exact absurd (Option.some.inj h) (by intro h0; injection h0)
    | ok p0 =>
      obtain ⟨off, key⟩ := p0
      have hb : off ≤ (p.drop i).length := index_unescaped_ok_bound hAd hr0
      have hdl : (p.drop i).length = p.length - i := by simp
      by_cases hend : byteLen p ≤ i + off
      · rw [pcpGo_step_noeq_end hslice hr0 hend] at h
        exact absurd (Option.some.inj h) (by intro h0; injection h0)
      · obtain ⟨c, hc⟩ := get_some_of_lt (show i + off < p.length by omega)
        by_cases hceq : c = '='
        · subst hceq
          have hi2 : i + off + 1 ≤ p.length := by omega
          have hslice2 : sliceFrom p (i + off + 1) = some (p.drop (i + off + 1)) :=
            sliceFrom_ascii hA _ hi2
          have hAd2 : allAscii (p.drop (i + off + 1)) = true := allAscii_drop hA _
          obtain ⟨r1, hr1⟩ := index_unescaped_total hAd2 [';']
          cases r1 with
          | error e =>
            rw [pcpGo_step_val_err hslice hr0 hend hc hslice2 hr1] at h
            exact absurd (Option.some.inj h) (by intro h0; injection h0)
          | ok p1 =>
            obtain ⟨off2, value⟩ := p1
            have hb2 : off2 ≤ (p.drop (i + off + 1)).length :=
              index_unescaped_ok_bound hAd2 hr1
            have hdl2 : (p.drop (i + off + 1)).length = p.length - (i + off + 1) := by simp
            by_cases hk : key = []
            · rw [pcpGo_step_empty_key hslice hr0 hend hc hslice2 hr1 hk] at h
              exact absurd (Option.some.inj h) (by intro h0; injection h0)
            · -- facts about the appended string, shared by both remaining cases
              have hslice' : sliceFrom (p ++ [';']) i = some (p.drop i ++ [';']) := by
                rw [sliceFrom_ascii hA' i (by simp; omega), drop_append_le p [';'] i hi]
              have hr0' : index_unescaped (p.drop i ++ [';']) ['=', ';'] =
                  some (.ok (off, key)) :=
                index_unescaped_append_semi hAd (by decide) hr0
              have hend' : ¬ byteLen (p ++ [';']) ≤ i + off := by omega
              have hc' : (p ++ [';']).get? (i + off) = some '=' := by
                rw [get_append_lt p [';'] (by omega)]; exact hc
              have hslice2' : sliceFrom (p ++ [';']) (i + off + 1) =
                  some (p.drop (i + off + 1) ++ [';']) := by
                rw [sliceFrom_ascii hA' _ (by simp; omega),
                  drop_append_le p [';'] _ (by omega)]
              have hr1' : index_unescaped (p.drop (i + off + 1) ++ [';']) [';'] =
                  some (.ok (off2, value)) :=
                index_unescaped_append_semi hAd2 (by decide) hr1
              by_cases hfin : byteLen p ≤ i + off + 1 + off2
              · -- the last segment of `p`: the appended run does one more
                -- iteration on the empty trailing segment and errors
                have hisem : i + off + 1 + off2 = p.length := by omega
                have hfin' : ¬ byteLen (p ++ [';']) ≤ i + off + 1 + off2 := by omega
                rw [pcpGo_step_next hslice' hr0' hend' hc' hslice2' hr1' hk hfin']
                have hsl_end : sliceFrom (p ++ [';']) (i + off + 1 + off2 + 1) = some [] := by
                  rw [sliceFrom_ascii hA' _ (by simp; omega)]
                  rw [hisem]
                  simp
                have hiu_nil : index_unescaped ([] : List Char) ['=', ';'] =
                    some (.ok (0, [])) := by decide
                exact pcpGo_step_noeq_end hsl_end hiu_nil (by omega)
              · -- a middle segment: both runs continue in lockstep
                rw [pcpGo_step_next hslice hr0 hend hc hslice2 hr1 hk hfin] at h
                have hfin' : ¬ byteLen (p ++ [';']) ≤ i + off + 1 + off2 := by omega
                rw [pcpGo_step_next hslice' hr0' hend' hc' hslice2' hr1' hk hfin']
                exact ih (i + off + 1 + off2 + 1) (Args.add args key value) m (by omega) h
        · rw [pcpGo_step_noeq hslice hr0 hend hc hceq] at h
          exact absurd (Option.some.inj h) (by intro h0; injection h0)

/-- C7 — appending an unescaped trailing `';'` to any ASCII input that
`parse_client_parameters` accepts (i.e. to a complete sequence of
`key=value` segments) makes it return a `ParseError`: the grammar does not
permit a trailing empty segment. -/
theorem c7_trailing_delimiter_rejected (p : List Char) (m : Args)
    (hA : allAscii p = true) (h : parse_client_parameters p = some (.ok m)) :
    parse_client_parameters (p ++ [';']) = some (.error .ParseError) := by
  by_cases hp : p = []
  · subst hp; decide
  · rw [parse_client_parameters, if_neg hp] at h
    rw [parse_client_parameters, if_neg (by simp : ¬ p ++ [';'] = [])]
    have hfuel : byteLen (p ++ [';']) + 1 = (byteLen p + 1) + 1 := by
      rw [byteLen_append]; rfl
    rw [hfuel]
    exact pcpGo_append_semi hA (byteLen p + 1) 0 [] m (by omega) h

/-- Witness for `c7_trailing_delimiter_rejected`: `"key=value;"` fails. -/
theorem c7_trailing_delimiter_witness :
    parse_client_parameters (str "key=value" ++ [';']) = some (.error .ParseError) :=
  c7_trailing_delimiter_rejected (str "key=value") [(str "key", [str "value"])]
    (by decide) (by decide)

/-- C1 (amended) — the round-trip
`parse_client_parameters(encode_smethod_args(Some(m))) = Ok(m)` does hold for
a map with exactly one key bound to exactly one value, when the key is
non-empty, key and value are ASCII-only, and neither contains `';'`
(the encoder never escapes `';'`, and several pairs would be joined by an
unescaped comma — see the counterexample). -/
theorem c1_roundtrip_single_pair (k v : List Char) (hk : k ≠ [])
    (hka : allAscii k = true) (hva : allAscii v = true)
    (hks : ';' ∉ k) (hvs : ';' ∉ v) :
    parse_client_parameters (encode_smethod_args (some [(k, [v])])) =
      some (.ok [(k, [v])]) := by
  rw [encode_single]
  have hAk : allAscii (escapeSm k) = true := allAscii_escapeSm hka
  have hAv : allAscii (escapeSm v) = true := allAscii_escapeSm hva
  have hAP : allAscii (escapeSm k ++ '=' :: escapeSm v) = true := by
    rw [allAscii_append, allAscii_cons]
    exact ⟨hAk, by decide, hAv⟩
  have hPlen : (escapeSm k ++ '=' :: escapeSm v).length =
      (escapeSm k).length + 1 + (escapeSm v).length := by simp; omega
  have hBL : byteLen (escapeSm k ++ '=' :: escapeSm v) =
      (escapeSm k ++ '=' :: escapeSm v).length := byteLen_ascii hAP
  have hPne : escapeSm k ++ '=' :: escapeSm v ≠ [] := by simp
  rw [parse_client_parameters, if_neg hPne]
  have hkv : k.length ≤ (escapeSm k).length := length_le_escapeSm k
  have hvv : v.length ≤ (escapeSm v).length := length_le_escapeSm v
  -- the key scan consumes the escaped key and stops at the unescaped '='
  have hscan1 : index_unescaped (escapeSm k ++ '=' :: escapeSm v) ['=', ';'] =
      some (.ok ((escapeSm k).length, k)) := by
    rw [index_unescaped]
    have := iuGo_escape_term hks
      (show ∀ c ∈ (['=', ';'] : List Char), c = '=' ∨ c = ';' by
        intro c hc; simpa using hc)
      (by decide)
      (byteLen (escapeSm k ++ '=' :: escapeSm v) + 1)
      (escapeSm k ++ '=' :: escapeSm v) [] (escapeSm v) [] '='
      rfl (by decide) (by omega)
    simpa using this
  -- the value scan consumes the escaped value up to the end of the input
  have hscan2 : index_unescaped (escapeSm v) [';'] =
      some (.ok ((escapeSm v).length, v)) := by
    rw [index_unescaped]
    have hBv : byteLen (escapeSm v) = (escapeSm v).length := byteLen_ascii hAv
    have := iuGo_escape_end hvs (byteLen (escapeSm v) + 1)
      (escapeSm v) [] [] rfl hAv (by omega)
    simpa using this
  have hslice : sliceFrom (escapeSm k ++ '=' :: escapeSm v) 0 =
      some (escapeSm k ++ '=' :: escapeSm v) := sliceFrom_zero _
  have hscan1' : index_unescaped (escapeSm k ++ '=' :: escapeSm v) ['=', ';'] =
      some (.ok ((escapeSm k).length, k)) := hscan1
  have hend : ¬ byteLen (escapeSm k ++ '=' :: escapeSm v) ≤ 0 + (escapeSm k).length := by
    omega
  have hgeq : (escapeSm k ++ '=' :: escapeSm v).get? (0 + (escapeSm k).length) =
      some '=' := by
    simpa using get_append_at (escapeSm k) '=' (escapeSm v)
  have hslice2 : sliceFrom (escapeSm k ++ '=' :: escapeSm v)
      (0 + (escapeSm k).length + 1) = some (escapeSm v) := by
    rw [sliceFrom_ascii hAP _ (by omega)]
    have hsplit : escapeSm k ++ '=' :: escapeSm v = (escapeSm k ++ ['=']) ++ escapeSm v := by
      simp
    rw [hsplit, show 0 + (escapeSm k).length + 1 = (escapeSm k ++ ['=']).length by simp]
    rw [drop_append_left]
  have hfin : byteLen (escapeSm k ++ '=' :: escapeSm v) ≤
      0 + (escapeSm k).length + 1 + (escapeSm v).length := by omega
  rw [pcpGo_step_last hslice hscan1' hend hgeq hslice2 hscan2 hk hfin]
  rfl

/-- Witness for `c1_roundtrip_single_pair` at a concrete single-pair map with
characters the encoder escapes (`=`, `,`, `\`) in both key and value. -/
theorem c1_roundtrip_single_pair_witness :
    parse_client_parameters (encode_smethod_args
        (some [(str "k=y", [str "v,a=\\b"])])) =
      some (.ok [(str "k=y", [str "v,a=\\b"])]) :=
  c1_roundtrip_single_pair (str "k=y") (str "v,a=\\b")
    (by decide) (by decide) (by decide) (by decide) (by decide)

/-- Helper for C5: when every well-formed segment's address resolves, a
duplicate method name among the segments makes the bind-address loop fail
with a `ParseError`, whatever was accumulated before. -/
theorem gsbLoop_dup_error (options_map : Opts) :
    ∀ (specs seen : List (List Char)) (addrs : List BindAddr),
      (∀ spec ∈ specs, (splitOnChar '-' spec).length = 2 →
        (resolve_addr ((splitOnChar '-' spec).getLastD [])).isOk = true) →
      seen.Nodup →
      ¬ (seen ++ specs.map methodHead).Nodup →
      gsbLoop options_map specs seen addrs = .error .ParseError := by
  intro specs
  induction specs with
  | nil =>
    intro seen addrs _ hnd hdup
    simp only [List.map_nil, List.append_nil] at hdup
    exact absurd hnd hdup
  | cons spec rest ih =>
    intro seen addrs hres hnd hdup
    by_cases hl : (splitOnChar '-' spec).length ≠ 2
    · rw [gsbLoop, if_pos hl]
    · rw [gsbLoop, if_neg hl]
      by_cases hseen : methodHead spec ∈ seen
      · rw [if_pos hseen]
      · rw [if_neg hseen]
        have hr := hres spec (List.mem_cons_self spec rest) (by omega)
        cases hra : resolve_addr ((splitOnChar '-' spec).getLastD []) with
        | error e => rw [hra] at hr; exact absurd hr (by simp [Except.isOk, Except.toBool])
        | ok addr =>
          simp only [hra]
          apply ih (seen ++ [methodHead spec]) _
            (fun s hs h2 => hres s (List.mem_cons_of_mem spec hs) h2)
          · rw [List.nodup_append]
            exact ⟨hnd, List.nodup_singleton _, List.disjoint_singleton.mpr hseen⟩
          · intro hcontra
            apply hdup
            rw [List.map_cons]
            have : seen ++ methodHead spec :: rest.map methodHead =
                (seen ++ [methodHead spec]) ++ rest.map methodHead := by simp
            rw [this]
            exact hcontra

/-- C5 — a bind-address list in which two comma-separated segments carry the
same method name makes `get_server_bindaddrs` fail with a `ParseError`
(and hence no partial result), even when every segment's address resolves —
in particular when the duplicates resolve to different addresses.
(The options string is assumed to parse; its errors would also be
`ParseError`s, raised before the bind-address list is examined.) -/
theorem c5_duplicate_method_parse_error
    (options_str bindaddr_str transports_str : List Char) (options_map : Opts)
    (hopts : parse_server_transport_options options_str = some (.ok options_map))
    (hres : ∀ spec ∈ commaSplit bindaddr_str, (splitOnChar '-' spec).length = 2 →
      (resolve_addr ((splitOnChar '-' spec).getLastD [])).isOk = true)
    (hdup : ¬ ((commaSplit bindaddr_str).map methodHead).Nodup) :
    get_server_bindaddrs options_str bindaddr_str transports_str =
      some (.error .ParseError) := by
  rw [get_server_bindaddrs]
  simp only [hopts]
  rw [gsbLoop_dup_error options_map (commaSplit bindaddr_str) [] [] hres
    List.nodup_nil (by simpa using hdup)]

/-- Witness for `c5_duplicate_method_parse_error`: the spec's own example
`"alpha-0.0.0.0:1234,alpha-[::]:1234"` (same name, different addresses). -/
theorem c5_duplicate_method_witness :
    get_server_bindaddrs (str "") (str "alpha-0.0.0.0:1234,alpha-[::]:1234")
      (str "alpha") = some (.error .ParseError) :=
  c5_duplicate_method_parse_error (str "") (str "alpha-0.0.0.0:1234,alpha-[::]:1234")
    (str "alpha") [] (by decide) (by decide) (by decide)

end PT
